import Mathlib

/-!
# Verification of the FFT engine in `src/wasm/fft.c`

This file gives a shallow embedding of the transform engine of the repository
(`cooley_tukey_fft`, `cooley_tukey_ifft`, `bluestein_fft`, `wasm_fft` from
`src/wasm/fft.c`) and proves properties of it.

Modelling conventions:

* C `float` values are modelled as elements of a field `F`; theorems
  instantiate `F := ℝ` (exact real arithmetic, the usual idealisation of
  floating point; the numerical claims allow a tolerance, and the idealised
  model realises them with error zero).
* The host-provided trigonometric functions `js_cos` / `js_sin` (reached
  through `cosf_approx` / `sinf_approx`) together with the source's literal
  `3.14159265359f` are modelled by a `Trig` bundle; theorems instantiate it
  with `Real.cos`, `Real.sin` and `Real.pi`.
* C arrays of floats are modelled as total functions `ℕ → F`; a store
  `a[k] = v` is the pointwise update `upd a k v`.
* C `for` loops with a fixed iteration range are modelled as `List.foldl`
  over the list of loop-counter values; the two genuine `while` loops of the
  source (`while (pow2 < m)` in `bluestein_fft` and the bit-clearing loop in
  the bit-reversal pass) are modelled by well-founded recursion.
* Freshly `malloc`ed buffers have indeterminate contents; `bluestein_fft`
  takes an extra argument `mem : ℕ → ℕ → F` giving the initial (junk)
  contents of its i-th allocation, in allocation order
  (0,1,2,3 = a_real, a_imag, b_real, b_imag; 4,5 = c_real, c_imag).
-/

namespace Tuner

/-- The trigonometric environment of `fft.c`: `piv` models the source literal
`3.14159265359f` (idealised as the exact constant it approximates), and
`cos`/`sin` model `cosf_approx`/`sinf_approx`, i.e. the host-imported
`Math.cos`/`Math.sin` narrowed to the working precision (idealised as exact). -/
structure Trig (F : Type) where
  piv : F
  cos : F → F
  sin : F → F

/-- Pointwise update of an array modelled as a function: the store `f[k] = x`. -/
def upd {F : Type} (f : ℕ → F) (k : ℕ) (x : F) : ℕ → F :=
  fun m => if m = k then x else f m

/-- The three-assignment swap `temp = f[a]; f[a] = f[b]; f[b] = temp` from the
bit-reversal pass of `cooley_tukey_fft`. -/
def swapIdx {F : Type} (f : ℕ → F) (a b : ℕ) : ℕ → F :=
  upd (upd f a (f b)) b (f a)

/-- The inner `for (; j & bit; bit >>= 1) j ^= bit; j ^= bit;` loop of the
bit-reversal pass: clears trailing set bits of the reversed counter `j`
(scanning from `bit` downwards) and sets the next one. -/
def revUpdate (j bit : ℕ) : ℕ :=
  if h : j &&& bit ≠ 0 then revUpdate (j ^^^ bit) (bit / 2) else j ^^^ bit
termination_by bit
decreasing_by
  have hb : bit ≠ 0 := by
    intro h0
    apply h
    simp [h0]
  omega

/-- One iteration of the bit-reversal loop of `cooley_tukey_fft`: update the
running reversed counter `j` (the inner bit-clearing loop starts at
`bit = n >> 1`), then swap entries `i` and `j` of both arrays when `i < j`. -/
def bitrev_step {F : Type} (n : ℕ) (s : ℕ × ((ℕ → F) × (ℕ → F))) (i : ℕ) :
    ℕ × ((ℕ → F) × (ℕ → F)) :=
  let j := revUpdate s.1 (n >>> 1)
  if i < j then (j, (swapIdx s.2.1 i j, swapIdx s.2.2 i j)) else (j, s.2)

/-- The first loop of `cooley_tukey_fft` (`fft.c` lines 28–39): the in-place
bit-reversal permutation pass, a single loop of swaps carrying the running
reversed-index counter `j` (initially 0) over `i = 1, …, n-1`. -/
def bit_reversal_pass {F : Type} (n : ℕ) (st : (ℕ → F) × (ℕ → F)) :
    (ℕ → F) × (ℕ → F) :=
  ((List.range' 1 (n - 1)).foldl (bitrev_step n) (0, st)).2

/-- One iteration of the innermost butterfly loop of `cooley_tukey_fft`
(`fft.c` lines 49–63): state is the incremental twiddle `(ur, ui)` together
with the two arrays; `iBlk` is the block base `i` and `half` is `len / 2`. -/
def butterfly_step {F : Type} [Field F] (wr wi : F) (iBlk half : ℕ)
    (s : (F × F) × ((ℕ → F) × (ℕ → F))) (j : ℕ) :
    (F × F) × ((ℕ → F) × (ℕ → F)) :=
  let ur := s.1.1
  let ui := s.1.2
  let re := s.2.1
  let im := s.2.2
  let u := iBlk + j
  let v := iBlk + j + half
  let tr := re v * ur - im v * ui
  let ti := re v * ui + im v * ur
  ((ur * wr - ui * wi, ur * wi + ui * wr),
   (upd (upd re v (re u - tr)) u (re u + tr),
    upd (upd im v (im u - ti)) u (im u + ti)))

/-- One butterfly stage of `cooley_tukey_fft` (`fft.c` lines 42–67) for a given
stage length `len`: computes the stage twiddle from `angle = -2π/len` once and
folds the inner loop over the blocks `i = 0, len, 2·len, …  < n`. -/
def fft_stage {F : Type} [Field F] (T : Trig F) (n len : ℕ)
    (st : (ℕ → F) × (ℕ → F)) : (ℕ → F) × (ℕ → F) :=
  let angle : F := -2 * T.piv / (len : F)
  let wr := T.cos angle
  let wi := T.sin angle
  (List.range ((n + len - 1) / len)).foldl
    (fun s b =>
      ((List.range (len / 2)).foldl
        (butterfly_step wr wi (b * len) (len / 2)) ((1, 0), s)).2)
    st

/-- `cooley_tukey_fft` from `fft.c` (lines 26–68): bit-reversal pass followed
by the butterfly stages `len = 2, 4, …` while `len ≤ n` (there are `log2 n`
such stages, with `len = 2^(s+1)` at stage index `s`). Arrays are mutated in
place; the model returns the final `(real, imag)` pair. -/
def cooley_tukey_fft {F : Type} [Field F] (T : Trig F) (real imag : ℕ → F)
    (n : ℕ) : (ℕ → F) × (ℕ → F) :=
  (List.range (Nat.log2 n)).foldl (fun s i => fft_stage T n (2 ^ (i + 1)) s)
    (bit_reversal_pass n (real, imag))

/-- `cooley_tukey_ifft` from `fft.c` (lines 71–86): conjugate the imaginary
part on `[0, n)`, run the forward transform, then scale the real part by
`1/n` and the imaginary part by `-1/n` on `[0, n)`. -/
def cooley_tukey_ifft {F : Type} [Field F] (T : Trig F) (real imag : ℕ → F)
    (n : ℕ) : (ℕ → F) × (ℕ → F) :=
  let conjIm : ℕ → F := fun i => if i < n then -imag i else imag i
  let st := cooley_tukey_fft T real conjIm n
  let scale : F := 1 / (n : F)
  (fun i => if i < n then st.1 i * scale else st.1 i,
   fun i => if i < n then st.2 i * (-scale) else st.2 i)

/-- The `while (pow2 < m) pow2 *= 2;` loop of `bluestein_fft` (`fft.c` lines
92–95). The conjunct `0 < pow2` is a termination guard only: the source
always enters the loop with `pow2 = 1`, and doubling keeps it positive. -/
def pow2_loop (m pow2 : ℕ) : ℕ :=
  if 0 < pow2 ∧ pow2 < m then pow2_loop m (pow2 * 2) else pow2
termination_by m - pow2
decreasing_by omega

/-- The padded length computed at the start of `bluestein_fft`:
`m = 2*n - 1; pow2 = 1; while (pow2 < m) pow2 *= 2;`. (For `n = 0` the C
`int` computation gives `m = -1` and leaves `pow2 = 1`; truncated ℕ
subtraction gives `m = 0` and likewise leaves `pow2 = 1`.) -/
def bluestein_pow2 (n : ℕ) : ℕ :=
  pow2_loop (2 * n - 1) 1

/-- The zeroing loop of `bluestein_fft` (lines 104–108) as seen by one buffer:
indices below `pow2` are set to `0.0f`, the rest keep the buffer's initial
(indeterminate) contents. -/
def zeroed {F : Type} [Field F] (pow2 : ℕ) (mem : ℕ → F) : ℕ → F :=
  fun i => if i < pow2 then 0 else mem i

/-- The chirp fill loop for `a` in `bluestein_fft` (lines 111–118):
`a[k] = x[k] * exp(-iπk²/n)` computed through `cos`/`sin` for `k < n`. -/
def bluestein_fill_a {F : Type} [Field F] (T : Trig F) (real imag : ℕ → F)
    (n : ℕ) (init : (ℕ → F) × (ℕ → F)) : (ℕ → F) × (ℕ → F) :=
  (List.range n).foldl
    (fun (s : (ℕ → F) × (ℕ → F)) (k : ℕ) =>
      let theta : F := -T.piv * (k : F) * (k : F) / (n : F)
      let wr := T.cos theta
      let wi := T.sin theta
      (upd s.1 k (real k * wr - imag k * wi),
       upd s.2 k (real k * wi + imag k * wr)))
    init

/-- The chirp-filter fill loop for `b` in `bluestein_fft` (lines 121–131):
`b[k] = exp(iπk²/n)` for `k < n`, mirrored to `b[pow2 - k]` when
`k > 0 && k < n`. -/
def bluestein_fill_b {F : Type} [Field F] (T : Trig F) (n pow2 : ℕ)
    (init : (ℕ → F) × (ℕ → F)) : (ℕ → F) × (ℕ → F) :=
  (List.range n).foldl
    (fun (s : (ℕ → F) × (ℕ → F)) (k : ℕ) =>
      let theta : F := T.piv * (k : F) * (k : F) / (n : F)
      let wr := T.cos theta
      let wi := T.sin theta
      let s1 := (upd s.1 k wr, upd s.2 k wi)
      if 0 < k ∧ k < n then
        (upd s1.1 (pow2 - k) wr, upd s1.2 (pow2 - k) wi)
      else s1)
    init

/-- `bluestein_fft` from `fft.c` (lines 89–155). `mem i` is the initial
(indeterminate) contents of the i-th buffer returned by `alloc_floats`, in
allocation order `a_real, a_imag, b_real, b_imag, c_real, c_imag`. The
pointwise-product loop (lines 139–142) and the final extraction loop (lines
148–154) each write every index they touch exactly once from other buffers,
so they are modelled by their pointwise closed forms. -/
def bluestein_fft {F : Type} [Field F] (T : Trig F) (mem : ℕ → ℕ → F)
    (real imag : ℕ → F) (n : ℕ) : (ℕ → F) × (ℕ → F) :=
  let pow2 := bluestein_pow2 n
  let a := bluestein_fill_a T real imag n (zeroed pow2 (mem 0), zeroed pow2 (mem 1))
  let b := bluestein_fill_b T n pow2 (zeroed pow2 (mem 2), zeroed pow2 (mem 3))
  let fa := cooley_tukey_fft T a.1 a.2 pow2
  let fb := cooley_tukey_fft T b.1 b.2 pow2
  let cRe : ℕ → F := fun i =>
    if i < pow2 then fa.1 i * fb.1 i - fa.2 i * fb.2 i else mem 4 i
  let cIm : ℕ → F := fun i =>
    if i < pow2 then fa.1 i * fb.2 i + fa.2 i * fb.1 i else mem 5 i
  let c := cooley_tukey_ifft T cRe cIm pow2
  (fun (k : ℕ) =>
    if k < n then
      let theta : F := -T.piv * (k : F) * (k : F) / (n : F)
      c.1 k * T.cos theta - c.2 k * T.sin theta
    else real k,
   fun (k : ℕ) =>
    if k < n then
      let theta : F := -T.piv * (k : F) * (k : F) / (n : F)
      c.1 k * T.sin theta + c.2 k * T.cos theta
    else imag k)

/-- `wasm_fft` from `fft.c` (lines 158–163): the public entry point converts
the byte offsets to pointers (host glue, out of scope) and calls
`bluestein_fft` with the caller-supplied `size` unconditionally — there is no
validation and no power-of-two special case. `size` is a C `int`; for
`size ≤ 0` every loop bound of the form `k < size` is vacuous and the padded
length is 1, which is exactly the behaviour of `bluestein_fft` at
`size.toNat = 0`. -/
def wasm_fft {F : Type} [Field F] (T : Trig F) (mem : ℕ → ℕ → F)
    (real imag : ℕ → F) (size : ℤ) : (ℕ → F) × (ℕ → F) :=
  bluestein_fft T mem real imag size.toNat

/-- The sizes (in floats) passed to `alloc_floats` during one `bluestein_fft`
call, in program order: `a_real, a_imag, b_real, b_imag` (lines 98–101) and
then `c_real, c_imag` (lines 136–137). All six calls are unconditional. -/
def bluestein_alloc_trace (n : ℕ) : List ℕ :=
  let pow2 := bluestein_pow2 n
  [pow2, pow2, pow2, pow2, pow2, pow2]

/-- The sizes of the buffers released during one `bluestein_fft` call:
`fft.c` contains no call to `free` at all, so the trace is empty. -/
def bluestein_free_trace (_n : ℕ) : List ℕ :=
  []

/-- Allocation trace of the public entry point `wasm_fft`. -/
def wasm_fft_alloc_trace (size : ℤ) : List ℕ :=
  bluestein_alloc_trace size.toNat

/-- The trigonometric environment used by the theorems: exact real `cos`,
`sin` and `π` (the idealisation of `Math.cos` / `Math.sin` / the source
literal `3.14159265359f`). -/
noncomputable def realTrig : Trig ℝ :=
  ⟨Real.pi, Real.cos, Real.sin⟩

/-- Bit reversal of the `L` low bits of a number: the low bit of `k` becomes
the top of the `L`-bit result. (Specification-side helper used to state what
the bit-reversal pass achieves.) -/
def bitRev : ℕ → ℕ → ℕ
  | 0, _ => 0
  | L + 1, k => 2 ^ L * (k % 2) + bitRev L (k / 2)

/-- View the separate real/imaginary arrays of the source as one array of
complex numbers. -/
def toC (st : (ℕ → ℝ) × (ℕ → ℝ)) : ℕ → ℂ :=
  fun k => ⟨st.1 k, st.2 k⟩

/-- The stage twiddle `e^(-2πi/m)` as a complex number: the idealised value of
`(cosf_approx(angle), sinf_approx(angle))` for `angle = -2π/m`. -/
noncomputable def W (m : ℕ) : ℂ :=
  Complex.exp (((-2 * Real.pi / (m : ℝ) : ℝ) : ℂ) * Complex.I)

/-- `e^(iθ)` for a real angle `θ`: the complex value of a `(cos θ, sin θ)`
pair produced through the trigonometric host functions. -/
noncomputable def eC (θ : ℝ) : ℂ :=
  Complex.exp ((θ : ℂ) * Complex.I)

/-- Possible outcomes of one `bluestein_fft` call under an allocator that may
fail. `completes` means the call runs to the end; `nullDeref` means some
store went through a null pointer (undefined behaviour in C). -/
inductive BluesteinOutcome where
  | completes : BluesteinOutcome
  | nullDeref : BluesteinOutcome
deriving DecidableEq

/-- Allocation behaviour of `bluestein_fft` under an allocator oracle: `ok i`
tells whether the `i`-th of the six `alloc_floats` calls (lines 98–101 and
136–137 of `fft.c`) returns a usable buffer. The source never checks any
allocation result; since `pow2 ≥ 1` always, the zeroing loop (lines 104–108)
unconditionally stores through the four `a`/`b` buffers, and the pointwise
product loop (lines 139–142) stores through the two `c` buffers. Hence a
failed allocation is never reported: the call dereferences the null pointer
instead. -/
def bluestein_run (ok : ℕ → Bool) (_n : ℕ) : BluesteinOutcome :=
  if ok 0 && ok 1 && ok 2 && ok 3 && ok 4 && ok 5 then .completes
  else .nullDeref

/-! ## Basic facts about `pow2_loop` (claim C4) -/

theorem pow2_loop_of_ge {m p : ℕ} (h : m ≤ p) : pow2_loop m p = p := by
  rw [pow2_loop]
  simp [Nat.not_lt.mpr h]

theorem pow2_loop_of_lt {m p : ℕ} (hp : 0 < p) (h : p < m) :
    pow2_loop m p = pow2_loop m (p * 2) := by
  rw [pow2_loop]
  simp [hp, h]

/-- Full characterisation of `pow2_loop` started at a power of two: the result
is a power of two, is `≥ m` (once the start is below `m`), and is minimal
among the powers `2^j`, `j ≥ i`, that are `≥ m`. The fuel `k` bounds the
number of doublings; any `k` with `m ≤ 2^i + k` suffices. -/
theorem pow2_loop_props :
    ∀ (k m i : ℕ), m ≤ 2 ^ i + k →
      (∃ j, i ≤ j ∧ pow2_loop m (2 ^ i) = 2 ^ j) ∧
      (m ≤ pow2_loop m (2 ^ i) ∨ m ≤ 2 ^ i) ∧
      (∀ j, i ≤ j → m ≤ 2 ^ j → pow2_loop m (2 ^ i) ≤ 2 ^ j) := by
  intro k
  induction k with
  | zero =>
    intro m i hm
    rw [Nat.add_zero] at hm
    rw [pow2_loop_of_ge hm]
    refine ⟨⟨i, le_refl i, rfl⟩, Or.inr hm, ?_⟩
    intro j hij _
    exact Nat.pow_le_pow_right (by norm_num) hij
  | succ k ih =>
    intro m i hm
    by_cases hle : m ≤ 2 ^ i
    · rw [pow2_loop_of_ge hle]
      refine ⟨⟨i, le_refl i, rfl⟩, Or.inr hle, ?_⟩
      intro j hij _
      exact Nat.pow_le_pow_right (by norm_num) hij
    · push_neg at hle
      have hpos : 0 < 2 ^ i := Nat.pos_pow_of_pos i (by norm_num)
      have hstep : pow2_loop m (2 ^ i) = pow2_loop m (2 ^ (i + 1)) := by
        rw [pow2_loop_of_lt hpos hle, pow_succ]
      have hm2 : m ≤ 2 ^ (i + 1) + k := by
        have h1 : 1 ≤ 2 ^ i := hpos
        have : 2 ^ (i + 1) = 2 ^ i + 2 ^ i := by rw [pow_succ]; omega
        omega
      obtain ⟨⟨j, hij, hj⟩, hge, hmin⟩ := ih m (i + 1) hm2
      rw [hstep]
      refine ⟨⟨j, le_trans (Nat.le_succ i) hij, hj⟩, ?_, ?_⟩
      · rcases hge with h | h
        · exact Or.inl h
        · exact Or.inl (by rw [pow2_loop_of_ge h]; exact h)
      · intro j2 hij2 hmj2
        have : i + 1 ≤ j2 := by
          rcases Nat.lt_or_ge i j2 with h | h
          · omega
          · exfalso
            have : 2 ^ j2 ≤ 2 ^ i := Nat.pow_le_pow_right (by norm_num) h
            omega
        exact hmin j2 this hmj2

theorem bluestein_pow2_def (n : ℕ) :
    bluestein_pow2 n = pow2_loop (2 * n - 1) (2 ^ 0) := rfl

/-- `bluestein_pow2 n` is a power of two. -/
theorem bluestein_pow2_is_pow2 (n : ℕ) : ∃ L, bluestein_pow2 n = 2 ^ L := by
  obtain ⟨⟨j, _, hj⟩, _, _⟩ :=
    pow2_loop_props (2 * n - 1) (2 * n - 1) 0 (by omega)
  exact ⟨j, by rw [bluestein_pow2_def]; exact hj⟩

/-- `bluestein_pow2 n` is at least `2n - 1`. -/
theorem bluestein_pow2_ge (n : ℕ) : 2 * n - 1 ≤ bluestein_pow2 n := by
  obtain ⟨_, hge, _⟩ := pow2_loop_props (2 * n - 1) (2 * n - 1) 0 (by omega)
  rw [bluestein_pow2_def]
  rcases hge with h | h
  · exact h
  · have h2 : pow2_loop (2 * n - 1) (2 ^ 0) = 2 ^ 0 := pow2_loop_of_ge h
    rw [h2]
    simpa using h

/-- Minimality: any power of two `≥ 2n - 1` is `≥ bluestein_pow2 n`. -/
theorem bluestein_pow2_min (n : ℕ) (j : ℕ) (hj : 2 * n - 1 ≤ 2 ^ j) :
    bluestein_pow2 n ≤ 2 ^ j := by
  obtain ⟨_, _, hmin⟩ := pow2_loop_props (2 * n - 1) (2 * n - 1) 0 (by omega)
  rw [bluestein_pow2_def]
  exact hmin j (Nat.zero_le j) hj

/-- `bluestein_pow2 n ≥ 1`. -/
theorem bluestein_pow2_pos (n : ℕ) : 1 ≤ bluestein_pow2 n := by
  obtain ⟨L, hL⟩ := bluestein_pow2_is_pow2 n
  rw [hL]
  exact Nat.pos_pow_of_pos L (by norm_num)

/-! ## Bit-reversal: arithmetic toolkit (claim C6) -/

theorem and_two_pow_eq_zero {r w : ℕ} (h : r < 2 ^ w) : r &&& 2 ^ w = 0 := by
  rw [Nat.and_two_pow, Nat.testBit_lt_two_pow h]
  simp

theorem add_and_two_pow_ne_zero {r w : ℕ} (h : r < 2 ^ w) :
    (2 ^ w + r) &&& 2 ^ w ≠ 0 := by
  rw [Nat.and_two_pow, Nat.testBit_two_pow_add_eq, Nat.testBit_lt_two_pow h]
  simp [Nat.pos_pow_of_pos w (show 0 < 2 by norm_num), Nat.pos_iff_ne_zero]

theorem xor_two_pow_eq_add {r w : ℕ} (h : r < 2 ^ w) :
    r ^^^ 2 ^ w = 2 ^ w + r := by
  apply Nat.eq_of_testBit_eq
  intro i
  rw [Nat.testBit_xor]
  rcases Nat.lt_trichotomy i w with hi | hi | hi
  · rw [Nat.testBit_two_pow_of_ne (Nat.ne_of_gt hi),
      Nat.testBit_two_pow_add_gt hi]
    simp
  · subst hi
    rw [Nat.testBit_two_pow_self, Nat.testBit_two_pow_add_eq,
      Nat.testBit_lt_two_pow h]
    rfl
  · have h1 : r < 2 ^ i := lt_trans h (Nat.pow_lt_pow_right (by norm_num) hi)
    have h2 : 2 ^ w + r < 2 ^ i := by
      have : 2 ^ w + r < 2 ^ (w + 1) := by
        rw [pow_succ]
        omega
      exact lt_of_lt_of_le this (Nat.pow_le_pow_right (by norm_num) hi)
    rw [Nat.testBit_lt_two_pow h1, Nat.testBit_lt_two_pow h2,
      Nat.testBit_two_pow_of_ne (Nat.ne_of_lt hi)]
    rfl

theorem add_xor_two_pow_eq {r w : ℕ} (h : r < 2 ^ w) :
    (2 ^ w + r) ^^^ 2 ^ w = r := by
  rw [← xor_two_pow_eq_add h, Nat.xor_assoc, Nat.xor_self, Nat.xor_zero]

theorem bitRev_lt (L : ℕ) : ∀ k, bitRev L k < 2 ^ L := by
  induction L with
  | zero => intro k; rw [bitRev]; norm_num
  | succ L ih =>
    intro k
    rw [bitRev]
    have h1 : k % 2 ≤ 1 := by omega
    have h2 : bitRev L (k / 2) < 2 ^ L := ih (k / 2)
    have h3 : 2 ^ L * (k % 2) ≤ 2 ^ L := by
      calc 2 ^ L * (k % 2) ≤ 2 ^ L * 1 := Nat.mul_le_mul_left _ h1
      _ = 2 ^ L := Nat.mul_one _
    calc 2 ^ L * (k % 2) + bitRev L (k / 2) < 2 ^ L + 2 ^ L := by omega
    _ = 2 ^ (L + 1) := by rw [pow_succ]; ring

theorem bitRev_even (L b : ℕ) : bitRev (L + 1) (2 * b) = bitRev L b := by
  rw [bitRev]
  have h1 : 2 * b % 2 = 0 := by omega
  have h2 : 2 * b / 2 = b := by omega
  rw [h1, h2]
  ring

theorem bitRev_odd (L b : ℕ) :
    bitRev (L + 1) (2 * b + 1) = 2 ^ L + bitRev L b := by
  rw [bitRev]
  have h1 : (2 * b + 1) % 2 = 1 := by omega
  have h2 : (2 * b + 1) / 2 = b := by omega
  rw [h1, h2]
  ring

/-- Top-bit characterisation: peeling the highest of `L+1` bits. -/
theorem bitRev_top (L : ℕ) : ∀ k, k < 2 ^ (L + 1) →
    bitRev (L + 1) k = 2 * bitRev L (k % 2 ^ L) + k / 2 ^ L := by
  induction L with
  | zero =>
    intro k hk
    interval_cases k <;> simp [bitRev]
  | succ L ih =>
    intro k hk
    rw [bitRev, ih (k / 2) (by rw [pow_succ] at hk; omega)]
    have e1 : k / 2 % 2 ^ L = k % 2 ^ (L + 1) / 2 := by
      rcases Nat.lt_or_ge k (2 ^ (L + 1)) with h | h
      · rw [Nat.mod_eq_of_lt h, Nat.mod_eq_of_lt (by omega)]
      · have hk2 : k - 2 ^ (L + 1) < 2 ^ (L + 1) := by
          rw [pow_succ] at hk ⊢
          omega
        have e2 : k % 2 ^ (L + 1) = k - 2 ^ (L + 1) := by
          conv_lhs => rw [show k = 2 ^ (L + 1) + (k - 2 ^ (L + 1)) by omega]
          rw [Nat.add_mod_left, Nat.mod_eq_of_lt hk2]
        rw [e2]
        have e3 : k / 2 = 2 ^ L + (k - 2 ^ (L + 1)) / 2 := by
          conv_lhs => rw [show k = 2 ^ (L + 1) + (k - 2 ^ (L + 1)) by omega]
          rw [pow_succ]
          omega
        rw [e3, Nat.add_mod_left, Nat.mod_eq_of_lt]
        rw [pow_succ] at hk2
        omega
    have e4 : k / 2 / 2 ^ L = k / 2 ^ (L + 1) := by
      rw [Nat.div_div_eq_div_mul, pow_succ, mul_comm 2 (2 ^ L)]
    have e5 : k % 2 ^ (L + 1) % 2 = k % 2 := by
      rw [Nat.mod_mod_of_dvd]
      exact ⟨2 ^ L, by rw [pow_succ]; ring⟩
    rw [e1, e4, bitRev, e5]
    ring

/-- Bit reversal of `L` bits is an involution on `[0, 2^L)`. -/
theorem bitRev_bitRev (L : ℕ) : ∀ k, k < 2 ^ L → bitRev L (bitRev L k) = k := by
  induction L with
  | zero =>
    intro k hk
    interval_cases k
    rfl
  | succ L ih =>
    intro k hk
    rcases Nat.even_or_odd k with ⟨b, hb⟩ | ⟨b, hb⟩
    · subst hb
      rw [show b + b = 2 * b by ring] at hk ⊢
      rw [bitRev_even]
      have hv : bitRev L b < 2 ^ L := bitRev_lt L b
      rw [bitRev_top L _ (lt_trans hv (by rw [pow_succ]; omega)),
        Nat.mod_eq_of_lt hv, Nat.div_eq_of_lt hv,
        ih b (by rw [pow_succ] at hk; omega)]
      ring
    · subst hb
      rw [bitRev_odd]
      have hv : bitRev L b < 2 ^ L := bitRev_lt L b
      rw [bitRev_top L _ (by rw [pow_succ]; omega)]
      have e1 : (2 ^ L + bitRev L b) % 2 ^ L = bitRev L b := by
        rw [Nat.add_mod_left, Nat.mod_eq_of_lt hv]
      have e2 : (2 ^ L + bitRev L b) / 2 ^ L = 1 := by
        rw [Nat.add_div_left _ (Nat.pos_pow_of_pos L (by norm_num)),
          Nat.div_eq_of_lt hv]
      rw [e1, e2, ih b (by rw [pow_succ] at hk; omega)]

/-- The Gold–Rader reversed-counter increment: starting from the reversal of
`i` and the top bit `2^L / 2`, the inner loop of the bit-reversal pass
produces the reversal of `i + 1`. -/
theorem revUpdate_bitRev (L : ℕ) :
    ∀ i, i + 1 < 2 ^ (L + 1) →
      revUpdate (bitRev (L + 1) i) (2 ^ L) = bitRev (L + 1) (i + 1) := by
  induction L with
  | zero =>
    intro i hi
    have h0 : i = 0 := by omega
    subst h0
    rw [show bitRev (0 + 1) 0 = 0 from rfl, revUpdate]
    simp [bitRev]
  | succ L ih =>
    intro i hi
    rcases Nat.even_or_odd i with ⟨b, hb⟩ | ⟨b, hb⟩
    · subst hb
      rw [show b + b = 2 * b by ring]
      rw [bitRev_even]
      have hv : bitRev (L + 1) b < 2 ^ (L + 1) := bitRev_lt (L + 1) b
      rw [revUpdate]
      rw [dif_neg (by simp [and_two_pow_eq_zero hv])]
      rw [xor_two_pow_eq_add hv, bitRev_odd]
    · subst hb
      rw [show 2 * b + 1 + 1 = 2 * (b + 1) by ring]
      rw [bitRev_odd, bitRev_even]
      have hv : bitRev (L + 1) b < 2 ^ (L + 1) := bitRev_lt (L + 1) b
      rw [revUpdate]
      rw [dif_pos (add_and_two_pow_ne_zero hv)]
      rw [add_xor_two_pow_eq hv]
      have e1 : 2 ^ (L + 1) / 2 = 2 ^ L := by
        rw [pow_succ]
        omega
      rw [e1]
      exact ih b (by rw [pow_succ] at hi; omega)

theorem bitRev_zero (L : ℕ) : bitRev L 0 = 0 := by
  induction L with
  | zero => rfl
  | succ L ih => rw [bitRev]; simp [ih]

theorem upd_self {F : Type} (f : ℕ → F) (k : ℕ) (x : F) : upd f k x k = x := by
  simp [upd]

theorem upd_ne {F : Type} (f : ℕ → F) {m k : ℕ} (x : F) (h : m ≠ k) :
    upd f k x m = f m := by
  simp [upd, h]

theorem swapIdx_fst {F : Type} (f : ℕ → F) (a b : ℕ) : swapIdx f a b a = f b := by
  by_cases h : a = b
  · subst h
    simp [swapIdx, upd]
  · simp [swapIdx, upd, h]

theorem swapIdx_snd {F : Type} (f : ℕ → F) (a b : ℕ) : swapIdx f a b b = f a := by
  simp [swapIdx, upd]

theorem swapIdx_ne {F : Type} (f : ℕ → F) {p a b : ℕ} (h1 : p ≠ a) (h2 : p ≠ b) :
    swapIdx f a b p = f p := by
  simp [swapIdx, upd, h1, h2]

/-- Loop invariant of the bit-reversal pass on an array of length `2^(L+1)`:
after processing `i = 1, …, m`, the counter holds `bitRev (L+1) m`, every
position whose index or reversed index is `≤ m` holds the element from its
reversed position, all other positions are untouched. -/
theorem bitrev_fold_invariant {F : Type} (L : ℕ) (x : (ℕ → F) × (ℕ → F)) :
    ∀ m, m + 1 ≤ 2 ^ (L + 1) →
      ((List.range' 1 m).foldl (bitrev_step (2 ^ (L + 1))) (0, x)).1 =
        bitRev (L + 1) m ∧
      (∀ p, p < 2 ^ (L + 1) →
        (((List.range' 1 m).foldl (bitrev_step (2 ^ (L + 1))) (0, x)).2.1 p =
          if p ≤ m ∨ bitRev (L + 1) p ≤ m then x.1 (bitRev (L + 1) p)
          else x.1 p) ∧
        (((List.range' 1 m).foldl (bitrev_step (2 ^ (L + 1))) (0, x)).2.2 p =
          if p ≤ m ∨ bitRev (L + 1) p ≤ m then x.2 (bitRev (L + 1) p)
          else x.2 p)) ∧
      (∀ p, 2 ^ (L + 1) ≤ p →
        (((List.range' 1 m).foldl (bitrev_step (2 ^ (L + 1))) (0, x)).2.1 p =
          x.1 p) ∧
        (((List.range' 1 m).foldl (bitrev_step (2 ^ (L + 1))) (0, x)).2.2 p =
          x.2 p)) := by
  intro m
  induction m with
  | zero =>
    intro _
    refine ⟨(bitRev_zero (L + 1)).symm, ?_, ?_⟩
    · intro p hp
      have key : (p ≤ 0 ∨ bitRev (L + 1) p ≤ 0) → bitRev (L + 1) p = p := by
        rintro (h | h)
        · have hp0 : p = 0 := by omega
          rw [hp0, bitRev_zero]
        · have h0 : bitRev (L + 1) p = 0 := by omega
          have := bitRev_bitRev (L + 1) p hp
          rw [h0, bitRev_zero] at this
          rw [h0, this]
      constructor <;>
        · simp only [List.range', List.foldl_nil]
          by_cases hg : p ≤ 0 ∨ bitRev (L + 1) p ≤ 0
          · rw [if_pos hg, key hg]
          · rw [if_neg hg]
    · intro p _
      simp [List.range']
  | succ m ih =>
    intro hm
    have hm' : m + 1 ≤ 2 ^ (L + 1) := by omega
    obtain ⟨ihj, iharr, ihhigh⟩ := ih hm'
    have hconcat : List.range' 1 (m + 1) = List.range' 1 m ++ [1 + 1 * m] := by
      exact List.range'_concat 1 m
    have hm1 : 1 + 1 * m = m + 1 := by ring
    rw [hconcat, hm1, List.foldl_append, List.foldl_cons, List.foldl_nil]
    set r := (List.range' 1 m).foldl (bitrev_step (2 ^ (L + 1))) (0, x) with hr
    have hshift : 2 ^ (L + 1) >>> 1 = 2 ^ L := by
      have : 2 ^ (L + 1) >>> 1 = 2 ^ (L + 1) / 2 := by
        rw [Nat.shiftRight_succ, Nat.shiftRight_zero]
      rw [this, pow_succ]
      omega
    have hmlt : m + 1 < 2 ^ (L + 1) := by omega
    have hj : revUpdate r.1 (2 ^ (L + 1) >>> 1) = bitRev (L + 1) (m + 1) := by
      rw [ihj, hshift]
      exact revUpdate_bitRev L m hmlt
    have hjm_lt : bitRev (L + 1) (m + 1) < 2 ^ (L + 1) := bitRev_lt (L + 1) (m + 1)
    have hjm_inv : bitRev (L + 1) (bitRev (L + 1) (m + 1)) = m + 1 :=
      bitRev_bitRev (L + 1) (m + 1) hmlt
    simp only [bitrev_step]
    rw [hj]
    by_cases hswap : m + 1 < bitRev (L + 1) (m + 1)
    · rw [if_pos hswap]
      dsimp only
      refine ⟨rfl, ?_, ?_⟩
      · intro p hp
        have hinv : bitRev (L + 1) (bitRev (L + 1) p) = p := bitRev_bitRev (L + 1) p hp
        by_cases hpj : p = bitRev (L + 1) (m + 1)
        · subst hpj
          rw [swapIdx_snd, swapIdx_snd]
          have g1 : ¬(m + 1 ≤ m ∨ bitRev (L + 1) (m + 1) ≤ m) := by omega
          obtain ⟨e1, e2⟩ := iharr (m + 1) hmlt
          rw [e1, e2, if_neg g1, if_neg g1]
          constructor <;>
            · rw [if_pos (Or.inr (le_of_eq hjm_inv)), hjm_inv]
        · by_cases hpm : p = m + 1
          · subst hpm
            rw [swapIdx_fst, swapIdx_fst]
            have g1 : ¬(bitRev (L + 1) (m + 1) ≤ m ∨
                bitRev (L + 1) (bitRev (L + 1) (m + 1)) ≤ m) := by
              rw [hjm_inv]
              omega
            obtain ⟨e1, e2⟩ := iharr (bitRev (L + 1) (m + 1)) hjm_lt
            rw [e1, e2, if_neg g1, if_neg g1]
            constructor <;> rw [if_pos (Or.inl (le_refl (m + 1)))]
          · rw [swapIdx_ne _ hpm hpj, swapIdx_ne _ hpm hpj]
            obtain ⟨e1, e2⟩ := iharr p hp
            rw [e1, e2]
            have hguard : (p ≤ m ∨ bitRev (L + 1) p ≤ m) ↔
                (p ≤ m + 1 ∨ bitRev (L + 1) p ≤ m + 1) := by
              constructor
              · intro h
                rcases h with h | h
                · exact Or.inl (by omega)
                · exact Or.inr (by omega)
              · intro h
                rcases h with h | h
                · have : p ≠ m + 1 := hpm
                  exact Or.inl (by omega)
                · have hne : bitRev (L + 1) p ≠ m + 1 := by
                    intro he
                    apply hpj
                    rw [← he, hinv]
                  exact Or.inr (by omega)
            by_cases hg : p ≤ m ∨ bitRev (L + 1) p ≤ m
            · constructor <;> rw [if_pos hg, if_pos (hguard.mp hg)]
            · constructor <;> rw [if_neg hg, if_neg (fun h => hg (hguard.mpr h))]
      · intro p hp
        have h1 : p ≠ m + 1 := by omega
        have h2 : p ≠ bitRev (L + 1) (m + 1) := by omega
        obtain ⟨e1, e2⟩ := ihhigh p hp
        rw [swapIdx_ne _ h1 h2, swapIdx_ne _ h1 h2, e1, e2]
        exact ⟨rfl, rfl⟩
    · rw [if_neg hswap]
      dsimp only
      refine ⟨rfl, ?_, ihhigh⟩
      intro p hp
      have hinv : bitRev (L + 1) (bitRev (L + 1) p) = p := bitRev_bitRev (L + 1) p hp
      obtain ⟨e1, e2⟩ := iharr p hp
      rw [e1, e2]
      by_cases hg : p ≤ m ∨ bitRev (L + 1) p ≤ m
      · have hg2 : p ≤ m + 1 ∨ bitRev (L + 1) p ≤ m + 1 := by
          rcases hg with h | h
          · exact Or.inl (by omega)
          · exact Or.inr (by omega)
        constructor <;> rw [if_pos hg, if_pos hg2]
      · by_cases hg2 : p ≤ m + 1 ∨ bitRev (L + 1) p ≤ m + 1
        · -- the newly covered index: only `p = m+1` with `bitRev p = p`
          have hfix : bitRev (L + 1) p = p := by
            push_neg at hg
            rcases hg2 with h | h
            · have hpm : p = m + 1 := by omega
              subst hpm
              omega
            · have hrev : bitRev (L + 1) p = m + 1 := by omega
              have hpj : p = bitRev (L + 1) (m + 1) := by rw [← hrev, hinv]
              have hpm : p = m + 1 := by omega
              rw [hrev, hpm]
          constructor <;> rw [if_neg hg, if_pos hg2, hfix]
        · constructor <;> rw [if_neg hg, if_neg hg2]

/-- After the bit-reversal pass on an array of length `2^L`, position `p`
holds the element originally at the bit-reversed index. -/
theorem bit_reversal_pass_spec {F : Type} (L : ℕ) (x : (ℕ → F) × (ℕ → F)) :
    ∀ p, p < 2 ^ L →
      (bit_reversal_pass (2 ^ L) x).1 p = x.1 (bitRev L p) ∧
      (bit_reversal_pass (2 ^ L) x).2 p = x.2 (bitRev L p) := by
  intro p hp
  cases L with
  | zero =>
    have hp0 : p = 0 := by omega
    subst hp0
    rw [bitRev_zero]
    exact ⟨rfl, rfl⟩
  | succ L =>
    have hm : 2 ^ (L + 1) - 1 + 1 ≤ 2 ^ (L + 1) := by
      have := Nat.pos_pow_of_pos (L + 1) (show 0 < 2 by norm_num)
      omega
    obtain ⟨_, harr, _⟩ := bitrev_fold_invariant L x (2 ^ (L + 1) - 1) hm
    obtain ⟨e1, e2⟩ := harr p hp
    have hg : p ≤ 2 ^ (L + 1) - 1 ∨ bitRev (L + 1) p ≤ 2 ^ (L + 1) - 1 :=
      Or.inl (by omega)
    rw [bit_reversal_pass, e1, e2, if_pos hg, if_pos hg]
    exact ⟨rfl, rfl⟩

/-- The bit-reversal pass does not touch positions at or beyond the length. -/
theorem bit_reversal_pass_high {F : Type} (L : ℕ) (x : (ℕ → F) × (ℕ → F)) :
    ∀ p, 2 ^ L ≤ p →
      (bit_reversal_pass (2 ^ L) x).1 p = x.1 p ∧
      (bit_reversal_pass (2 ^ L) x).2 p = x.2 p := by
  intro p hp
  cases L with
  | zero => exact ⟨rfl, rfl⟩
  | succ L =>
    have hm : 2 ^ (L + 1) - 1 + 1 ≤ 2 ^ (L + 1) := by
      have := Nat.pos_pow_of_pos (L + 1) (show 0 < 2 by norm_num)
      omega
    obtain ⟨_, _, hhigh⟩ := bitrev_fold_invariant L x (2 ^ (L + 1) - 1) hm
    exact hhigh p hp

/-! ## Complex-number view of the real/imaginary array pair -/

theorem toC_re (st : (ℕ → ℝ) × (ℕ → ℝ)) (k : ℕ) : (toC st k).re = st.1 k := rfl

theorem toC_im (st : (ℕ → ℝ) × (ℕ → ℝ)) (k : ℕ) : (toC st k).im = st.2 k := rfl

theorem toC_pair (f g : ℕ → ℝ) (k : ℕ) : toC (f, g) k = ⟨f k, g k⟩ := rfl

/-- Closed form of the innermost butterfly loop of `cooley_tukey_fft` after
`m ≤ half` iterations at block base `iBlk`: the running twiddle `(ur, ui)`
equals `w^m` for `w = wr + wi·i`, the first `m` slots of each half-block have
been combined by the butterfly, and everything else is untouched. -/
theorem butterfly_fold_spec (wr wi : ℝ) (iBlk half : ℕ) (hhalf : 1 ≤ half)
    (st : (ℕ → ℝ) × (ℕ → ℝ)) :
    ∀ m, m ≤ half →
    ∀ r, r = (List.range m).foldl (butterfly_step wr wi iBlk half) ((1, 0), st) →
      (r.1.1 = ((⟨wr, wi⟩ : ℂ) ^ m).re ∧ r.1.2 = ((⟨wr, wi⟩ : ℂ) ^ m).im) ∧
      (∀ t, t < m →
        toC r.2 (iBlk + t) =
          toC st (iBlk + t) + (⟨wr, wi⟩ : ℂ) ^ t * toC st (iBlk + t + half) ∧
        toC r.2 (iBlk + t + half) =
          toC st (iBlk + t) - (⟨wr, wi⟩ : ℂ) ^ t * toC st (iBlk + t + half)) ∧
      (∀ p, (∀ t, t < m → p ≠ iBlk + t ∧ p ≠ iBlk + t + half) →
        r.2.1 p = st.1 p ∧ r.2.2 p = st.2 p) := by
  intro m
  induction m with
  | zero =>
    intro _ r hr
    subst hr
    refine ⟨⟨by simp, by simp⟩, ?_, ?_⟩
    · intro t ht
      omega
    · intro p _
      exact ⟨rfl, rfl⟩
  | succ m ih =>
    intro hm r hr
    have hmlt : m < half := by omega
    obtain ⟨⟨hu1, hu2⟩, harr, hun⟩ := ih (by omega)
      ((List.range m).foldl (butterfly_step wr wi iBlk half) ((1, 0), st)) rfl
    rw [List.range_succ, List.foldl_append, List.foldl_cons, List.foldl_nil] at hr
    subst hr
    set r := (List.range m).foldl (butterfly_step wr wi iBlk half) ((1, 0), st)
      with hrdef
    have hval_u : r.2.1 (iBlk + m) = st.1 (iBlk + m) ∧
        r.2.2 (iBlk + m) = st.2 (iBlk + m) := by
      apply hun
      intro t ht
      omega
    have hval_v : r.2.1 (iBlk + m + half) = st.1 (iBlk + m + half) ∧
        r.2.2 (iBlk + m + half) = st.2 (iBlk + m + half) := by
      apply hun
      intro t ht
      omega
    simp only [butterfly_step]
    refine ⟨⟨?_, ?_⟩, ?_, ?_⟩
    · dsimp only
      rw [hu1, hu2, pow_succ, Complex.mul_re]
    · dsimp only
      rw [hu1, hu2, pow_succ, Complex.mul_im]
    · intro t ht
      rcases Nat.lt_or_ge t m with htm | htm
      · -- slots handled in earlier iterations: untouched by this one
        have h1 : iBlk + t ≠ iBlk + m + half := by omega
        have h2 : iBlk + t ≠ iBlk + m := by omega
        have h3 : iBlk + t + half ≠ iBlk + m + half := by omega
        have h4 : iBlk + t + half ≠ iBlk + m := by omega
        obtain ⟨g1, g2⟩ := harr t htm
        constructor
        · rw [toC_pair, upd_ne _ _ h2, upd_ne _ _ h1, upd_ne _ _ h2,
            upd_ne _ _ h1]
          exact g1
        · rw [toC_pair, upd_ne _ _ h4, upd_ne _ _ h3, upd_ne _ _ h4,
            upd_ne _ _ h3]
          exact g2
      · -- t = m: the slot processed in this iteration
        have htm2 : t = m := by omega
        subst htm2
        have hne : iBlk + t + half ≠ iBlk + t := by omega
        constructor
        · rw [toC_pair, upd_self, upd_self]
          rw [hval_u.1, hval_u.2, hval_v.1, hval_v.2, hu1, hu2]
          apply Complex.ext
          · rw [Complex.add_re, Complex.mul_re, toC_re, toC_re, toC_im]
            dsimp only
            ring
          · rw [Complex.add_im, Complex.mul_im, toC_im, toC_re, toC_im]
            dsimp only
            ring
        · rw [toC_pair, upd_ne _ _ hne, upd_self, upd_ne _ _ hne, upd_self]
          rw [hval_u.1, hval_u.2, hval_v.1, hval_v.2, hu1, hu2]
          apply Complex.ext
          · rw [Complex.sub_re, Complex.mul_re, toC_re, toC_re, toC_im]
            dsimp only
            ring
          · rw [Complex.sub_im, Complex.mul_im, toC_im, toC_re, toC_im]
            dsimp only
            ring
    · intro p hpfree
      have h1 : p ≠ iBlk + m := (hpfree m (by omega)).1
      have h2 : p ≠ iBlk + m + half := (hpfree m (by omega)).2
      obtain ⟨g1, g2⟩ := hun p (fun t ht => hpfree t (by omega))
      rw [upd_ne _ _ h1, upd_ne _ _ h2, upd_ne _ _ h1, upd_ne _ _ h2]
      exact ⟨g1, g2⟩

/-- For `len ∣ n`, the C block count `(n + len - 1) / len` is exactly
`n / len`. -/
theorem block_count_of_dvd {n len : ℕ} (h : len ∣ n) (hl : 1 ≤ len) :
    (n + len - 1) / len = n / len := by
  obtain ⟨q, rfl⟩ := h
  have e1 : len * q + len - 1 = len * q + (len - 1) := by omega
  rw [e1, Nat.mul_add_div (by omega), Nat.div_eq_of_lt (by omega),
    Nat.mul_div_cancel_left q (by omega)]
  omega

/-- Closed form of the block loop of one butterfly stage: each block
`[b·len, (b+1)·len)` is combined by the stage butterfly with twiddle powers
`w^t`, and positions at or beyond `nb·len` are untouched. -/
theorem blocks_fold_spec (wr wi : ℝ) (len half : ℕ) (hlen : len = 2 * half)
    (hhalf : 1 ≤ half) :
    ∀ nb st r,
      r = (List.range nb).foldl
        (fun (s : (ℕ → ℝ) × (ℕ → ℝ)) b =>
          ((List.range half).foldl
            (butterfly_step wr wi (b * len) half) ((1, 0), s)).2) st →
      (∀ b, b < nb → ∀ t, t < half →
        toC r (b * len + t) =
          toC st (b * len + t) + (⟨wr, wi⟩ : ℂ) ^ t * toC st (b * len + t + half) ∧
        toC r (b * len + t + half) =
          toC st (b * len + t) - (⟨wr, wi⟩ : ℂ) ^ t * toC st (b * len + t + half)) ∧
      (∀ p, nb * len ≤ p → r.1 p = st.1 p ∧ r.2 p = st.2 p) := by
  intro nb
  induction nb with
  | zero =>
    intro st r hr
    subst hr
    refine ⟨?_, ?_⟩
    · intro b hb
      omega
    · intro p _
      exact ⟨rfl, rfl⟩
  | succ nb ih =>
    intro st r hr
    obtain ⟨iharr, ihhigh⟩ := ih st
      ((List.range nb).foldl
        (fun (s : (ℕ → ℝ) × (ℕ → ℝ)) b =>
          ((List.range half).foldl
            (butterfly_step wr wi (b * len) half) ((1, 0), s)).2) st) rfl
    rw [List.range_succ, List.foldl_append, List.foldl_cons, List.foldl_nil] at hr
    set rp := (List.range nb).foldl
      (fun (s : (ℕ → ℝ) × (ℕ → ℝ)) b =>
        ((List.range half).foldl
          (butterfly_step wr wi (b * len) half) ((1, 0), s)).2) st with hrp
    obtain ⟨_, bfarr, bfun⟩ := butterfly_fold_spec wr wi (nb * len) half hhalf
      rp half (le_refl half)
      ((List.range half).foldl (butterfly_step wr wi (nb * len) half)
        ((1, 0), rp)) rfl
    subst hr
    constructor
    · intro b hb t ht
      rcases Nat.lt_or_ge b nb with hbn | hbn
      · -- an earlier block: untouched by the new block's butterflies
        have hfree1 : ∀ t2, t2 < half →
            b * len + t ≠ nb * len + t2 ∧ b * len + t ≠ nb * len + t2 + half := by
          intro t2 ht2
          have : (b + 1) * len ≤ nb * len := Nat.mul_le_mul_right len hbn
          constructor <;> nlinarith
        have hfree2 : ∀ t2, t2 < half →
            b * len + t + half ≠ nb * len + t2 ∧
            b * len + t + half ≠ nb * len + t2 + half := by
          intro t2 ht2
          have : (b + 1) * len ≤ nb * len := Nat.mul_le_mul_right len hbn
          constructor <;> nlinarith
        obtain ⟨e1, e2⟩ := bfun (b * len + t) hfree1
        obtain ⟨e3, e4⟩ := bfun (b * len + t + half) hfree2
        obtain ⟨g1, g2⟩ := iharr b hbn t ht
        constructor
        · rw [show toC (((List.range half).foldl
              (butterfly_step wr wi (nb * len) half) ((1, 0), rp)).2)
              (b * len + t) = toC rp (b * len + t) from Complex.ext e1 e2, g1]
        · rw [show toC (((List.range half).foldl
              (butterfly_step wr wi (nb * len) half) ((1, 0), rp)).2)
              (b * len + t + half) = toC rp (b * len + t + half) from
              Complex.ext e3 e4, g2]
      · -- the new block b = nb
        have hb2 : b = nb := by omega
        subst hb2
        obtain ⟨f1, f2⟩ := bfarr t ht
        have hu : b * len + t ≥ b * len := by omega
        have hv : b * len + t + half ≥ b * len := by omega
        obtain ⟨p1, p2⟩ := ihhigh (b * len + t) hu
        obtain ⟨p3, p4⟩ := ihhigh (b * len + t + half) hv
        have eu : toC rp (b * len + t) = toC st (b * len + t) :=
          Complex.ext p1 p2
        have ev : toC rp (b * len + t + half) = toC st (b * len + t + half) :=
          Complex.ext p3 p4
        rw [f1, f2, eu, ev]
        exact ⟨rfl, rfl⟩
    · intro p hp
      have hfree : ∀ t2, t2 < half →
          p ≠ nb * len + t2 ∧ p ≠ nb * len + t2 + half := by
        intro t2 ht2
        have h1 : nb * len + t2 + half < (nb + 1) * len := by
          have : (nb + 1) * len = nb * len + len := by ring
          omega
        omega
      obtain ⟨e1, e2⟩ := bfun p hfree
      obtain ⟨g1, g2⟩ := ihhigh p (le_trans (Nat.mul_le_mul_right len (by omega)) hp)
      rw [e1, e2]
      exact ⟨g1, g2⟩

theorem mk_cos_sin (θ : ℝ) :
    (⟨Real.cos θ, Real.sin θ⟩ : ℂ) = Complex.exp ((θ : ℂ) * Complex.I) := by
  apply Complex.ext
  · rw [Complex.exp_ofReal_mul_I_re]
  · rw [Complex.exp_ofReal_mul_I_im]

/-- Closed form of one full butterfly stage of `cooley_tukey_fft` (with exact
trigonometry) for a stage length `len` dividing the array length `n`. -/
theorem fft_stage_spec (n len : ℕ) (hdvd : len ∣ n) (hlen2 : 2 ≤ len)
    (heven : len % 2 = 0) (st : (ℕ → ℝ) × (ℕ → ℝ)) :
    (∀ b, b < n / len → ∀ t, t < len / 2 →
      toC (fft_stage realTrig n len st) (b * len + t) =
        toC st (b * len + t) + W len ^ t * toC st (b * len + t + len / 2) ∧
      toC (fft_stage realTrig n len st) (b * len + t + len / 2) =
        toC st (b * len + t) - W len ^ t * toC st (b * len + t + len / 2)) ∧
    (∀ p, n ≤ p →
      (fft_stage realTrig n len st).1 p = st.1 p ∧
      (fft_stage realTrig n len st).2 p = st.2 p) := by
  have hhalf : 1 ≤ len / 2 := by omega
  have hlen : len = 2 * (len / 2) := by omega
  have hcount : (n + len - 1) / len = n / len :=
    block_count_of_dvd hdvd (by omega)
  have hw : (⟨realTrig.cos (-2 * realTrig.piv / ((len : ℕ) : ℝ)),
      realTrig.sin (-2 * realTrig.piv / ((len : ℕ) : ℝ))⟩ : ℂ) = W len := by
    rw [show realTrig.cos = Real.cos from rfl, show realTrig.sin = Real.sin from rfl,
      show realTrig.piv = Real.pi from rfl, mk_cos_sin, W]
  obtain ⟨harr, hhigh⟩ := blocks_fold_spec
    (realTrig.cos (-2 * realTrig.piv / ((len : ℕ) : ℝ)))
    (realTrig.sin (-2 * realTrig.piv / ((len : ℕ) : ℝ)))
    len (len / 2) hlen hhalf ((n + len - 1) / len) st
    (fft_stage realTrig n len st) rfl
  constructor
  · intro b hb t ht
    obtain ⟨g1, g2⟩ := harr b (by rw [hcount]; exact hb) t ht
    rw [hw] at g1 g2
    exact ⟨g1, g2⟩
  · intro p hp
    apply hhigh
    rw [hcount, Nat.div_mul_cancel hdvd]
    exact hp

theorem W_sq (m : ℕ) (hm : 1 ≤ m) : W (2 * m) ^ 2 = W m := by
  have hm0 : ((m : ℝ) : ℂ) ≠ 0 := by
    simp only [ne_eq, Complex.ofReal_eq_zero, Nat.cast_eq_zero]
    omega
  rw [W, W, ← Complex.exp_nat_mul]
  congr 1
  push_cast
  field_simp
  ring

theorem W_pow_self (m : ℕ) (hm : 1 ≤ m) : W m ^ m = 1 := by
  have hm0 : (m : ℂ) ≠ 0 := Nat.cast_ne_zero.mpr (by omega)
  rw [W, ← Complex.exp_nat_mul]
  have key : (m : ℂ) * (((-2 * Real.pi / (m : ℝ) : ℝ) : ℂ) * Complex.I) =
      (-1 : ℤ) * (2 * (Real.pi : ℂ) * Complex.I) := by
    push_cast
    field_simp
    ring
  rw [key, Complex.exp_int_mul_two_pi_mul_I]

theorem W_two_mul_pow (m : ℕ) (hm : 1 ≤ m) : W (2 * m) ^ m = -1 := by
  have hm0 : (m : ℂ) ≠ 0 := Nat.cast_ne_zero.mpr (by omega)
  rw [W, ← Complex.exp_nat_mul]
  have key : (m : ℂ) * (((-2 * Real.pi / ((2 * m : ℕ) : ℝ) : ℝ) : ℂ) * Complex.I) =
      -((Real.pi : ℂ) * Complex.I) := by
    push_cast
    field_simp
    ring
  rw [key, Complex.exp_neg, Complex.exp_pi_mul_I]
  norm_num

theorem sum_range_even_odd (m : ℕ) (f : ℕ → ℂ) :
    ∑ j ∈ Finset.range (2 * m), f j =
      (∑ j ∈ Finset.range m, f (2 * j)) + ∑ j ∈ Finset.range m, f (2 * j + 1) := by
  induction m with
  | zero => simp
  | succ m ih =>
    rw [show 2 * (m + 1) = 2 * m + 1 + 1 by ring, Finset.sum_range_succ,
      Finset.sum_range_succ, ih, Finset.sum_range_succ (fun j => f (2 * j)) m,
      Finset.sum_range_succ (fun j => f (2 * j + 1)) m]
    ring

/-- Splitting a sum over `[0, 2m)` into even and odd indices, with the two
halves given in explicit form. -/
theorem sum_range_even_odd_of (m : ℕ) (f g h : ℕ → ℂ)
    (hg : ∀ j, g j = f (2 * j)) (hh : ∀ j, h j = f (2 * j + 1)) :
    ∑ j ∈ Finset.range (2 * m), f j =
      (∑ j ∈ Finset.range m, g j) + ∑ j ∈ Finset.range m, h j := by
  rw [sum_range_even_odd m f]
  congr 1
  · exact Finset.sum_congr rfl (fun j _ => (hg j).symm)
  · exact Finset.sum_congr rfl (fun j _ => (hh j).symm)

/-- Loop invariant of the butterfly stages of `cooley_tukey_fft` on an array
of length `2^L` (after the bit-reversal pass): after the first `s` stages,
block `b` of size `2^s` holds the `2^s`-point DFT of the input subsequence
with stride `2^(L-s)` and offset `bitRev (L-s) b`, and positions at or beyond
`2^L` are untouched. -/
theorem stages_invariant (L : ℕ) (x : (ℕ → ℝ) × (ℕ → ℝ)) :
    ∀ s, s ≤ L →
    ∀ r, r = (List.range s).foldl
        (fun st i => fft_stage realTrig (2 ^ L) (2 ^ (i + 1)) st)
        (bit_reversal_pass (2 ^ L) x) →
      (∀ b t, b < 2 ^ (L - s) → t < 2 ^ s →
        toC r (b * 2 ^ s + t) =
          ∑ j ∈ Finset.range (2 ^ s),
            W (2 ^ s) ^ (t * j) *
              toC x (j * 2 ^ (L - s) + bitRev (L - s) b)) ∧
      (∀ p, 2 ^ L ≤ p → r.1 p = x.1 p ∧ r.2 p = x.2 p) := by
  intro s
  induction s with
  | zero =>
    intro _ r hr
    subst hr
    simp only [List.range_zero, List.foldl_nil]
    constructor
    · intro b t hb ht
      have ht0 : t = 0 := by
        have h1 : (2 : ℕ) ^ 0 = 1 := pow_zero 2
        omega
      subst ht0
      rw [Nat.sub_zero] at hb
      obtain ⟨e1, e2⟩ := bit_reversal_pass_spec L x b hb
      have hpass : toC (bit_reversal_pass (2 ^ L) x) b = toC x (bitRev L b) :=
        Complex.ext e1 e2
      simp only [pow_zero, mul_one, add_zero, Nat.sub_zero,
        Finset.sum_range_one, Nat.mul_zero, Nat.zero_mul, zero_add, mul_zero,
        one_mul]
      exact hpass
    · intro p hp
      exact bit_reversal_pass_high L x p hp
  | succ s ih =>
    intro hs r hr
    have hsL : s ≤ L := by omega
    obtain ⟨iharr, ihhigh⟩ := ih hsL _ rfl
    rw [List.range_succ, List.foldl_append, List.foldl_cons, List.foldl_nil]
      at hr
    set rp := (List.range s).foldl
      (fun st i => fft_stage realTrig (2 ^ L) (2 ^ (i + 1)) st)
      (bit_reversal_pass (2 ^ L) x) with hrp
    subst hr
    have hdvd : 2 ^ (s + 1) ∣ 2 ^ L := pow_dvd_pow 2 hs
    have hlen2 : 2 ≤ 2 ^ (s + 1) := by
      calc (2 : ℕ) = 2 ^ 1 := (pow_one 2).symm
      _ ≤ 2 ^ (s + 1) := Nat.pow_le_pow_right (by norm_num) (by omega)
    have heven : 2 ^ (s + 1) % 2 = 0 := by
      rw [pow_succ]
      omega
    obtain ⟨starr, sthigh⟩ :=
      fft_stage_spec (2 ^ L) (2 ^ (s + 1)) hdvd hlen2 heven rp
    have hhalf : 2 ^ (s + 1) / 2 = 2 ^ s := by
      rw [pow_succ]
      omega
    have hcount : 2 ^ L / 2 ^ (s + 1) = 2 ^ (L - s - 1) := by
      rw [Nat.pow_div hs (by norm_num)]
      congr 1
    rw [hhalf, hcount] at starr
    have hpos_s : 1 ≤ 2 ^ s := Nat.pos_pow_of_pos s (by norm_num)
    have hsub : L - (s + 1) = L - s - 1 := by omega
    have hLs : L - s = L - s - 1 + 1 := by omega
    have hps : 2 ^ (s + 1) = 2 * 2 ^ s := by
      rw [pow_succ]
      ring
    have hqs : 2 ^ (L - s) = 2 * 2 ^ (L - s - 1) := by
      conv_lhs => rw [hLs]
      rw [pow_succ]
      ring
    constructor
    · intro b t2 hb ht2
      rw [hsub] at hb
      have hrev_e : bitRev (L - s) (2 * b) = bitRev (L - s - 1) b := by
        conv_lhs => rw [hLs]
        exact bitRev_even _ b
      have hrev_o : bitRev (L - s) (2 * b + 1) =
          2 ^ (L - s - 1) + bitRev (L - s - 1) b := by
        conv_lhs => rw [hLs]
        exact bitRev_odd _ b
      have h2b : 2 * b < 2 ^ (L - s) := by
        rw [hqs]
        omega
      have h2b1 : 2 * b + 1 < 2 ^ (L - s) := by
        rw [hqs]
        omega
      rw [hsub]
      rcases Nat.lt_or_ge t2 (2 ^ s) with ht | ht
      · -- t2 in the first half of the block
        obtain ⟨g1, _⟩ := starr b hb t2 ht
        have iha := iharr (2 * b) t2 h2b ht
        have ihb := iharr (2 * b + 1) t2 h2b1 ht
        rw [hrev_e] at iha
        rw [hrev_o] at ihb
        have idx1 : b * 2 ^ (s + 1) + t2 = 2 * b * 2 ^ s + t2 := by
          rw [hps]
          ring
        have idx2 : 2 * b * 2 ^ s + t2 + 2 ^ s = (2 * b + 1) * 2 ^ s + t2 := by
          ring
        rw [g1, idx1, idx2, iha, ihb, hps]
        have step1 :
            ∑ j ∈ Finset.range (2 * 2 ^ s),
              W (2 * 2 ^ s) ^ (t2 * j) *
                toC x (j * 2 ^ (L - s - 1) + bitRev (L - s - 1) b) =
            (∑ j ∈ Finset.range (2 ^ s),
              W (2 * 2 ^ s) ^ (t2 * (2 * j)) *
                toC x (2 * j * 2 ^ (L - s - 1) + bitRev (L - s - 1) b)) +
            ∑ j ∈ Finset.range (2 ^ s),
              W (2 * 2 ^ s) ^ (t2 * (2 * j + 1)) *
                toC x ((2 * j + 1) * 2 ^ (L - s - 1) + bitRev (L - s - 1) b) :=
          sum_range_even_odd_of (2 ^ s) _ _ _ (fun j => rfl) (fun j => rfl)
        rw [step1]
        have hE : ∑ j ∈ Finset.range (2 ^ s),
            W (2 * 2 ^ s) ^ (t2 * (2 * j)) *
              toC x (2 * j * 2 ^ (L - s - 1) + bitRev (L - s - 1) b) =
            ∑ j ∈ Finset.range (2 ^ s),
              W (2 ^ s) ^ (t2 * j) *
                toC x (j * 2 ^ (L - s) + bitRev (L - s - 1) b) := by
          apply Finset.sum_congr rfl
          intro j _
          rw [show t2 * (2 * j) = 2 * (t2 * j) by ring, pow_mul,
            W_sq (2 ^ s) hpos_s,
            show 2 * j * 2 ^ (L - s - 1) = j * 2 ^ (L - s) by rw [hqs]; ring]
        have hO : ∑ j ∈ Finset.range (2 ^ s),
            W (2 * 2 ^ s) ^ (t2 * (2 * j + 1)) *
              toC x ((2 * j + 1) * 2 ^ (L - s - 1) + bitRev (L - s - 1) b) =
            W (2 * 2 ^ s) ^ t2 *
              ∑ j ∈ Finset.range (2 ^ s),
                W (2 ^ s) ^ (t2 * j) *
                  toC x (j * 2 ^ (L - s) +
                    (2 ^ (L - s - 1) + bitRev (L - s - 1) b)) := by
          rw [Finset.mul_sum]
          apply Finset.sum_congr rfl
          intro j _
          rw [show t2 * (2 * j + 1) = 2 * (t2 * j) + t2 by ring, pow_add,
            pow_mul, W_sq (2 ^ s) hpos_s,
            show (2 * j + 1) * 2 ^ (L - s - 1) =
              j * 2 ^ (L - s) + (2 ^ (L - s - 1)) by rw [hqs]; ring]
          rw [Nat.add_assoc]
          ring
        rw [hE, hO]
      · -- t2 in the second half of the block
        have ht' : t2 - 2 ^ s < 2 ^ s := by
          rw [hps] at ht2
          omega
        have ht2eq : t2 = t2 - 2 ^ s + 2 ^ s := by omega
        set t := t2 - 2 ^ s with htdef
        obtain ⟨_, g2⟩ := starr b hb t ht'
        have iha := iharr (2 * b) t h2b ht'
        have ihb := iharr (2 * b + 1) t h2b1 ht'
        rw [hrev_e] at iha
        rw [hrev_o] at ihb
        have idx0 : b * 2 ^ (s + 1) + t2 = b * 2 ^ (s + 1) + t + 2 ^ s := by
          omega
        have idx1 : b * 2 ^ (s + 1) + t = 2 * b * 2 ^ s + t := by
          rw [hps]
          ring
        have idx2 : 2 * b * 2 ^ s + t + 2 ^ s = (2 * b + 1) * 2 ^ s + t := by
          ring
        rw [idx0, g2, idx1, idx2, iha, ihb, ht2eq, hps]
        have step1 :
            ∑ j ∈ Finset.range (2 * 2 ^ s),
              W (2 * 2 ^ s) ^ ((t + 2 ^ s) * j) *
                toC x (j * 2 ^ (L - s - 1) + bitRev (L - s - 1) b) =
            (∑ j ∈ Finset.range (2 ^ s),
              W (2 * 2 ^ s) ^ ((t + 2 ^ s) * (2 * j)) *
                toC x (2 * j * 2 ^ (L - s - 1) + bitRev (L - s - 1) b)) +
            ∑ j ∈ Finset.range (2 ^ s),
              W (2 * 2 ^ s) ^ ((t + 2 ^ s) * (2 * j + 1)) *
                toC x ((2 * j + 1) * 2 ^ (L - s - 1) + bitRev (L - s - 1) b) :=
          sum_range_even_odd_of (2 ^ s) _ _ _ (fun j => rfl) (fun j => rfl)
        rw [step1]
        have hE : ∑ j ∈ Finset.range (2 ^ s),
            W (2 * 2 ^ s) ^ ((t + 2 ^ s) * (2 * j)) *
              toC x (2 * j * 2 ^ (L - s - 1) + bitRev (L - s - 1) b) =
            ∑ j ∈ Finset.range (2 ^ s),
              W (2 ^ s) ^ (t * j) *
                toC x (j * 2 ^ (L - s) + bitRev (L - s - 1) b) := by
          apply Finset.sum_congr rfl
          intro j _
          rw [show (t + 2 ^ s) * (2 * j) = 2 * ((t + 2 ^ s) * j) by ring,
            pow_mul, W_sq (2 ^ s) hpos_s,
            show (t + 2 ^ s) * j = t * j + 2 ^ s * j by ring, pow_add,
            pow_mul (W (2 ^ s)) (2 ^ s) j,
            W_pow_self (2 ^ s) hpos_s, one_pow, mul_one,
            show 2 * j * 2 ^ (L - s - 1) = j * 2 ^ (L - s) by rw [hqs]; ring]
        have hO : ∑ j ∈ Finset.range (2 ^ s),
            W (2 * 2 ^ s) ^ ((t + 2 ^ s) * (2 * j + 1)) *
              toC x ((2 * j + 1) * 2 ^ (L - s - 1) + bitRev (L - s - 1) b) =
            -(W (2 * 2 ^ s) ^ t *
              ∑ j ∈ Finset.range (2 ^ s),
                W (2 ^ s) ^ (t * j) *
                  toC x (j * 2 ^ (L - s) +
                    (2 ^ (L - s - 1) + bitRev (L - s - 1) b))) := by
          rw [Finset.mul_sum, ← Finset.sum_neg_distrib]
          apply Finset.sum_congr rfl
          intro j _
          rw [show (t + 2 ^ s) * (2 * j + 1) =
              2 * ((t + 2 ^ s) * j) + (t + 2 ^ s) by ring, pow_add,
            pow_mul, W_sq (2 ^ s) hpos_s,
            show (t + 2 ^ s) * j = t * j + 2 ^ s * j by ring, pow_add,
            pow_mul (W (2 ^ s)) (2 ^ s) j, W_pow_self (2 ^ s) hpos_s,
            one_pow, mul_one,
            pow_add (W (2 * 2 ^ s)) t (2 ^ s), W_two_mul_pow (2 ^ s) hpos_s,
            show (2 * j + 1) * 2 ^ (L - s - 1) =
              j * 2 ^ (L - s) + (2 ^ (L - s - 1)) by rw [hqs]; ring]
          rw [Nat.add_assoc]
          ring
        rw [hE, hO]
        ring
    · intro p hp
      obtain ⟨e1, e2⟩ := sthigh p hp
      obtain ⟨f1, f2⟩ := ihhigh p hp
      rw [e1, e2, f1, f2]
      exact ⟨rfl, rfl⟩

/-- `cooley_tukey_fft` on a power-of-two length computes the DFT with kernel
`W n = e^(-2πi/n)`: output `t` is `∑ j, W^(t·j)·x j`. Positions at or beyond
`n` are untouched. -/
theorem cooley_tukey_dft (L : ℕ) (re im : ℕ → ℝ) :
    (∀ t, t < 2 ^ L →
      toC (cooley_tukey_fft realTrig re im (2 ^ L)) t =
        ∑ j ∈ Finset.range (2 ^ L),
          W (2 ^ L) ^ (t * j) * toC (re, im) j) ∧
    (∀ p, 2 ^ L ≤ p →
      (cooley_tukey_fft realTrig re im (2 ^ L)).1 p = re p ∧
      (cooley_tukey_fft realTrig re im (2 ^ L)).2 p = im p) := by
  have hct : cooley_tukey_fft realTrig re im (2 ^ L) =
      (List.range L).foldl
        (fun st i => fft_stage realTrig (2 ^ L) (2 ^ (i + 1)) st)
        (bit_reversal_pass (2 ^ L) (re, im)) := by
    rw [cooley_tukey_fft, Nat.log2_two_pow]
  obtain ⟨harr, hhigh⟩ := stages_invariant L (re, im) L (le_refl L) _ rfl
  constructor
  · intro t ht
    have hb0 : 0 < 2 ^ (L - L) := Nat.pos_pow_of_pos _ (by norm_num)
    have h0 := harr 0 t hb0 ht
    rw [hct]
    simpa [Nat.sub_self, bitRev] using h0
  · intro p hp
    rw [hct]
    exact hhigh p hp

/-- Orthogonality of the DFT kernel rows: summing `conj(W^(k·t))·W^(t·m)`
over a full period gives `M` when `m = k` and `0` otherwise. -/
theorem sum_conj_W_mul (M k m : ℕ) (hM : 1 ≤ M) (hk : k < M) (hm : m < M) :
    ∑ t ∈ Finset.range M,
      (starRingEnd ℂ) (W M ^ (k * t)) * W M ^ (t * m) =
      if m = k then (M : ℂ) else 0 := by
  have hθ : ∀ n : ℕ, W M ^ n =
      Complex.exp ((n : ℂ) *
        (((-2 * Real.pi / (M : ℝ) : ℝ) : ℂ) * Complex.I)) := by
    intro n
    rw [W, ← Complex.exp_nat_mul]
  have hterm : ∀ t ∈ Finset.range M,
      (starRingEnd ℂ) (W M ^ (k * t)) * W M ^ (t * m) =
      Complex.exp (((m : ℂ) - k) *
        (((-2 * Real.pi / (M : ℝ) : ℝ) : ℂ) * Complex.I)) ^ t := by
    intro t _
    rw [hθ (k * t), hθ (t * m), ← Complex.exp_conj, ← Complex.exp_nat_mul,
      ← Complex.exp_add]
    congr 1
    rw [map_mul, map_mul, Complex.conj_I, map_natCast, Complex.conj_ofReal]
    push_cast
    ring
  rw [Finset.sum_congr rfl hterm]
  by_cases hmk : m = k
  · subst hmk
    rw [if_pos rfl]
    have hz : ((m : ℂ) - m) *
        (((-2 * Real.pi / (M : ℝ) : ℝ) : ℂ) * Complex.I) = 0 := by
      rw [sub_self, zero_mul]
    rw [hz, Complex.exp_zero]
    simp
  · rw [if_neg hmk]
    set q := Complex.exp (((m : ℂ) - k) *
      (((-2 * Real.pi / (M : ℝ) : ℝ) : ℂ) * Complex.I)) with hq
    have hMC : (M : ℂ) ≠ 0 := Nat.cast_ne_zero.mpr (by omega)
    have hqM : q ^ M = 1 := by
      rw [hq, ← Complex.exp_nat_mul]
      have key : (M : ℂ) * (((m : ℂ) - k) *
          (((-2 * Real.pi / (M : ℝ) : ℝ) : ℂ) * Complex.I)) =
          ((((k : ℤ) - (m : ℤ) : ℤ)) : ℂ) *
            (2 * (Real.pi : ℂ) * Complex.I) := by
        push_cast
        field_simp
        ring
      rw [key, Complex.exp_int_mul_two_pi_mul_I]
    have hq1 : q ≠ 1 := by
      intro h
      rw [hq, Complex.exp_eq_one_iff] at h
      obtain ⟨n, hn⟩ := h
      have hn2 : (((m : ℂ) - k) * ((-2 * Real.pi / (M : ℝ) : ℝ) : ℂ)) *
          Complex.I = ((n : ℂ) * (2 * (Real.pi : ℂ))) * Complex.I := by
        linear_combination hn
      have hAB := mul_right_cancel₀ Complex.I_ne_zero hn2
      have hreal : ((m : ℝ) - k) * (-2 * Real.pi / (M : ℝ)) =
          (n : ℝ) * (2 * Real.pi) := by
        exact_mod_cast hAB
      have hpi : (2 * Real.pi : ℝ) ≠ 0 := by
        have := Real.pi_ne_zero
        intro h0
        apply this
        linarith [h0]
      have hMR : (M : ℝ) ≠ 0 := by
        simp only [ne_eq, Nat.cast_eq_zero]
        omega
      have h3 : ((k : ℝ) - m) * (2 * Real.pi) =
          ((n : ℝ) * M) * (2 * Real.pi) := by
        field_simp at hreal
        linear_combination hreal
      have hint : (k : ℝ) - (m : ℝ) = (n : ℝ) * M :=
        mul_right_cancel₀ hpi h3
      have hintz : (k : ℤ) - (m : ℤ) = n * M := by
        exact_mod_cast hint
      have hdvd : (M : ℤ) ∣ ((k : ℤ) - m) := ⟨n, by rw [hintz]; ring⟩
      have habs : |(k : ℤ) - m| < M := by
        rw [abs_lt]
        constructor <;> omega
      have := Int.eq_zero_of_abs_lt_dvd hdvd habs
      apply hmk
      omega
    rw [geom_sum_eq hq1 M, hqM]
    simp

/-- Closed form of `cooley_tukey_ifft` at a power-of-two length: entry `k` of
the result is `(1/n)·∑ t, conj(W^(k·t))·x t` (the normalised inverse DFT). -/
theorem cooley_tukey_ifft_dft (L : ℕ) (re im : ℕ → ℝ) (k : ℕ)
    (hk : k < 2 ^ L) :
    toC (cooley_tukey_ifft realTrig re im (2 ^ L)) k =
      (1 / ((2 ^ L : ℕ) : ℂ)) *
        ∑ t ∈ Finset.range (2 ^ L),
          (starRingEnd ℂ) (W (2 ^ L) ^ (k * t)) * toC (re, im) t := by
  obtain ⟨hdft, _⟩ := cooley_tukey_dft L re
    (fun i => if i < 2 ^ L then -im i else im i)
  have hout := hdft k hk
  have hin : ∀ t ∈ Finset.range (2 ^ L),
      W (2 ^ L) ^ (k * t) *
        toC (re, fun i => if i < 2 ^ L then -im i else im i) t =
      W (2 ^ L) ^ (k * t) * (starRingEnd ℂ) (toC (re, im) t) := by
    intro t ht
    rw [Finset.mem_range] at ht
    congr 1
    apply Complex.ext
    · simp [toC, Complex.conj_re]
    · simp [toC, ht, Complex.conj_im]
  rw [Finset.sum_congr rfl hin] at hout
  have key : toC (cooley_tukey_ifft realTrig re im (2 ^ L)) k =
      ((1 / (((2 ^ L : ℕ) : ℝ)) : ℝ) : ℂ) *
        (starRingEnd ℂ) (toC (cooley_tukey_fft realTrig re
          (fun i => if i < 2 ^ L then -im i else im i) (2 ^ L)) k) := by
    apply Complex.ext
    · rw [Complex.re_ofReal_mul, toC_re, Complex.conj_re, toC_re]
      simp only [cooley_tukey_ifft, hk, if_pos]
      ring
    · rw [Complex.im_ofReal_mul, toC_im, Complex.conj_im, toC_im]
      simp only [cooley_tukey_ifft, hk, if_pos]
      ring
  rw [key, hout, map_sum]
  have hterm2 : ∀ t ∈ Finset.range (2 ^ L),
      (starRingEnd ℂ) (W (2 ^ L) ^ (k * t) * (starRingEnd ℂ) (toC (re, im) t)) =
      (starRingEnd ℂ) (W (2 ^ L) ^ (k * t)) * toC (re, im) t := by
    intro t _
    rw [map_mul, Complex.conj_conj]
  rw [Finset.sum_congr rfl hterm2]
  congr 1
  push_cast
  ring

/-- The conjugate-trick inverse undoes the forward transform exactly (in the
idealised real model): `ifft (fft x) = x` on `[0, 2^L)`. -/
theorem cooley_tukey_roundtrip (L : ℕ) (re im : ℕ → ℝ) (k : ℕ)
    (hk : k < 2 ^ L) :
    toC (cooley_tukey_ifft realTrig
      (cooley_tukey_fft realTrig re im (2 ^ L)).1
      (cooley_tukey_fft realTrig re im (2 ^ L)).2 (2 ^ L)) k =
      toC (re, im) k := by
  obtain ⟨hdft, _⟩ := cooley_tukey_dft L re im
  rw [cooley_tukey_ifft_dft L _ _ k hk]
  have hsum : ∀ t ∈ Finset.range (2 ^ L),
      (starRingEnd ℂ) (W (2 ^ L) ^ (k * t)) *
        toC ((cooley_tukey_fft realTrig re im (2 ^ L)).1,
             (cooley_tukey_fft realTrig re im (2 ^ L)).2) t =
      ∑ j ∈ Finset.range (2 ^ L),
        (starRingEnd ℂ) (W (2 ^ L) ^ (k * t)) * W (2 ^ L) ^ (t * j) *
          toC (re, im) j := by
    intro t ht
    rw [Finset.mem_range] at ht
    have heta : toC ((cooley_tukey_fft realTrig re im (2 ^ L)).1,
        (cooley_tukey_fft realTrig re im (2 ^ L)).2) t =
        toC (cooley_tukey_fft realTrig re im (2 ^ L)) t := rfl
    rw [heta, hdft t ht, Finset.mul_sum]
    apply Finset.sum_congr rfl
    intro j _
    ring
  rw [Finset.sum_congr rfl hsum, Finset.sum_comm]
  have hsum2 : ∀ j ∈ Finset.range (2 ^ L),
      ∑ t ∈ Finset.range (2 ^ L),
        (starRingEnd ℂ) (W (2 ^ L) ^ (k * t)) * W (2 ^ L) ^ (t * j) *
          toC (re, im) j =
      (if j = k then ((2 ^ L : ℕ) : ℂ) else 0) * toC (re, im) j := by
    intro j hj
    rw [Finset.mem_range] at hj
    rw [← Finset.sum_mul,
      sum_conj_W_mul (2 ^ L) k j (Nat.pos_pow_of_pos _ (by norm_num)) hk hj]
  rw [Finset.sum_congr rfl hsum2]
  have hsum3 : ∀ j ∈ Finset.range (2 ^ L),
      (if j = k then ((2 ^ L : ℕ) : ℂ) else 0) * toC (re, im) j =
      if j = k then ((2 ^ L : ℕ) : ℂ) * toC (re, im) j else 0 := by
    intro j _
    by_cases h : j = k <;> simp [h]
  rw [Finset.sum_congr rfl hsum3,
    Finset.sum_ite_eq' (Finset.range (2 ^ L)) k,
    if_pos (Finset.mem_range.mpr hk)]
  have hMC : ((2 ^ L : ℕ) : ℂ) ≠ 0 := Nat.cast_ne_zero.mpr (by positivity)
  field_simp

/-! ## Closed forms of the Bluestein chirp fill loops (claim C5) -/

/-- Closed form of the `a`-fill loop: index `k < n` holds
`x[k]·(cos θ_k, sin θ_k)` for `θ_k = -π·k²/n`; other indices keep their
initial contents. -/
theorem fill_a_spec {F : Type} [Field F] (T : Trig F) (re im : ℕ → F)
    (n : ℕ) (init : (ℕ → F) × (ℕ → F)) :
    ∀ p, ((bluestein_fill_a T re im n init).1 p =
      if p < n then
        re p * T.cos (-T.piv * (p : F) * (p : F) / (n : F)) -
          im p * T.sin (-T.piv * (p : F) * (p : F) / (n : F))
      else init.1 p) ∧
    ((bluestein_fill_a T re im n init).2 p =
      if p < n then
        re p * T.sin (-T.piv * (p : F) * (p : F) / (n : F)) +
          im p * T.cos (-T.piv * (p : F) * (p : F) / (n : F))
      else init.2 p) := by
  rw [bluestein_fill_a]
  have main : ∀ m, m ≤ n → ∀ p,
      (((List.range m).foldl
        (fun (s : (ℕ → F) × (ℕ → F)) (k : ℕ) =>
          let theta : F := -T.piv * (k : F) * (k : F) / (n : F)
          let wr := T.cos theta
          let wi := T.sin theta
          (upd s.1 k (re k * wr - im k * wi),
           upd s.2 k (re k * wi + im k * wr))) init).1 p =
        if p < m then
          re p * T.cos (-T.piv * (p : F) * (p : F) / (n : F)) -
            im p * T.sin (-T.piv * (p : F) * (p : F) / (n : F))
        else init.1 p) ∧
      (((List.range m).foldl
        (fun (s : (ℕ → F) × (ℕ → F)) (k : ℕ) =>
          let theta : F := -T.piv * (k : F) * (k : F) / (n : F)
          let wr := T.cos theta
          let wi := T.sin theta
          (upd s.1 k (re k * wr - im k * wi),
           upd s.2 k (re k * wi + im k * wr))) init).2 p =
        if p < m then
          re p * T.sin (-T.piv * (p : F) * (p : F) / (n : F)) +
            im p * T.cos (-T.piv * (p : F) * (p : F) / (n : F))
        else init.2 p) := by
    intro m
    induction m with
    | zero =>
      intro _ p
      simp
    | succ m ih =>
      intro hm p
      rw [List.range_succ, List.foldl_append, List.foldl_cons, List.foldl_nil]
      obtain ⟨e1, e2⟩ := ih (by omega) p
      dsimp only
      by_cases hp : p = m
      · subst hp
        rw [upd_self, upd_self, if_pos (show p < p + 1 by omega),
          if_pos (show p < p + 1 by omega)]
        exact ⟨rfl, rfl⟩
      · rw [upd_ne _ _ hp, upd_ne _ _ hp, e1, e2]
        by_cases hg : p < m
        · rw [if_pos hg, if_pos hg, if_pos (show p < m + 1 by omega),
            if_pos (show p < m + 1 by omega)]
          exact ⟨rfl, rfl⟩
        · rw [if_neg hg, if_neg hg, if_neg (show ¬p < m + 1 by omega),
            if_neg (show ¬p < m + 1 by omega)]
          exact ⟨rfl, rfl⟩
  exact main n (le_refl n)

/-- Closed form of the `b`-fill loop (in the presence of the padding bound
`2n-1 ≤ pow2`): head indices `k < n` hold `(cos θ_k, sin θ_k)` for
`θ_k = π·k²/n`, mirror indices `pow2-k` (for `1 ≤ k ≤ n-1`) hold the same
value as index `k`, and all other indices keep their initial contents. -/
theorem fill_b_spec {F : Type} [Field F] (T : Trig F) (n pow2 : ℕ)
    (hn : 1 ≤ n) (hp2 : 2 * n - 1 ≤ pow2) (init : (ℕ → F) × (ℕ → F)) :
    ∀ p, ((bluestein_fill_b T n pow2 init).1 p =
      if p < n then T.cos (T.piv * (p : F) * (p : F) / (n : F))
      else if pow2 - n + 1 ≤ p ∧ p ≤ pow2 - 1 then
        T.cos (T.piv * ((pow2 - p : ℕ) : F) * ((pow2 - p : ℕ) : F) / (n : F))
      else init.1 p) ∧
    ((bluestein_fill_b T n pow2 init).2 p =
      if p < n then T.sin (T.piv * (p : F) * (p : F) / (n : F))
      else if pow2 - n + 1 ≤ p ∧ p ≤ pow2 - 1 then
        T.sin (T.piv * ((pow2 - p : ℕ) : F) * ((pow2 - p : ℕ) : F) / (n : F))
      else init.2 p) := by
  rw [bluestein_fill_b]
  have main : ∀ m, m ≤ n → ∀ p,
      (((List.range m).foldl
        (fun (s : (ℕ → F) × (ℕ → F)) (k : ℕ) =>
          let theta : F := T.piv * (k : F) * (k : F) / (n : F)
          let wr := T.cos theta
          let wi := T.sin theta
          let s1 := (upd s.1 k wr, upd s.2 k wi)
          if 0 < k ∧ k < n then
            (upd s1.1 (pow2 - k) wr, upd s1.2 (pow2 - k) wi)
          else s1) init).1 p =
        if p < m then T.cos (T.piv * (p : F) * (p : F) / (n : F))
        else if pow2 - m + 1 ≤ p ∧ p ≤ pow2 - 1 then
          T.cos (T.piv * ((pow2 - p : ℕ) : F) * ((pow2 - p : ℕ) : F) / (n : F))
        else init.1 p) ∧
      (((List.range m).foldl
        (fun (s : (ℕ → F) × (ℕ → F)) (k : ℕ) =>
          let theta : F := T.piv * (k : F) * (k : F) / (n : F)
          let wr := T.cos theta
          let wi := T.sin theta
          let s1 := (upd s.1 k wr, upd s.2 k wi)
          if 0 < k ∧ k < n then
            (upd s1.1 (pow2 - k) wr, upd s1.2 (pow2 - k) wi)
          else s1) init).2 p =
        if p < m then T.sin (T.piv * (p : F) * (p : F) / (n : F))
        else if pow2 - m + 1 ≤ p ∧ p ≤ pow2 - 1 then
          T.sin (T.piv * ((pow2 - p : ℕ) : F) * ((pow2 - p : ℕ) : F) / (n : F))
        else init.2 p) := by
    intro m
    induction m with
    | zero =>
      intro _ p
      have hng : ¬p < 0 := by omega
      have hempty : ¬(pow2 - 0 + 1 ≤ p ∧ p ≤ pow2 - 1) := by omega
      simp only [List.range_zero, List.foldl_nil, if_neg hng, if_neg hempty]
      constructor <;> trivial
    | succ m ih =>
      intro hm p
      rw [List.range_succ, List.foldl_append, List.foldl_cons, List.foldl_nil]
      obtain ⟨e1, e2⟩ := ih (by omega) p
      dsimp only
      by_cases hk0 : 0 < m ∧ m < n
      · rw [if_pos hk0]
        dsimp only
        by_cases hpm : p = pow2 - m
        · -- the mirror index written in this iteration
          subst hpm
          have hge : n ≤ pow2 - m := by omega
          have h1 : pow2 - (pow2 - m) = m := by omega
          rw [upd_self, upd_self,
            if_neg (show ¬pow2 - m < m + 1 by omega),
            if_neg (show ¬pow2 - m < m + 1 by omega),
            if_pos (show pow2 - (m + 1) + 1 ≤ pow2 - m ∧
              pow2 - m ≤ pow2 - 1 by omega),
            if_pos (show pow2 - (m + 1) + 1 ≤ pow2 - m ∧
              pow2 - m ≤ pow2 - 1 by omega), h1]
          exact ⟨rfl, rfl⟩
        · rw [upd_ne _ _ hpm, upd_ne _ _ hpm]
          by_cases hpm2 : p = m
          · subst hpm2
            rw [upd_self, upd_self, if_pos (show p < p + 1 by omega),
              if_pos (show p < p + 1 by omega)]
            exact ⟨rfl, rfl⟩
          · rw [upd_ne _ _ hpm2, upd_ne _ _ hpm2, e1, e2]
            by_cases hg1 : p < m
            · rw [if_pos hg1, if_pos hg1, if_pos (show p < m + 1 by omega),
                if_pos (show p < m + 1 by omega)]
              exact ⟨rfl, rfl⟩
            · rw [if_neg hg1, if_neg hg1,
                if_neg (show ¬p < m + 1 by omega),
                if_neg (show ¬p < m + 1 by omega)]
              by_cases hg2 : pow2 - m + 1 ≤ p ∧ p ≤ pow2 - 1
              · rw [if_pos hg2, if_pos hg2,
                  if_pos (show pow2 - (m + 1) + 1 ≤ p ∧ p ≤ pow2 - 1
                    by omega),
                  if_pos (show pow2 - (m + 1) + 1 ≤ p ∧ p ≤ pow2 - 1
                    by omega)]
                exact ⟨rfl, rfl⟩
              · rw [if_neg hg2, if_neg hg2,
                  if_neg (show ¬(pow2 - (m + 1) + 1 ≤ p ∧ p ≤ pow2 - 1)
                    by omega),
                  if_neg (show ¬(pow2 - (m + 1) + 1 ≤ p ∧ p ≤ pow2 - 1)
                    by omega)]
                exact ⟨rfl, rfl⟩
      · -- m = 0 (no mirror write)
        have hm0 : m = 0 := by omega
        rw [if_neg hk0]
        dsimp only
        subst hm0
        by_cases hpm2 : p = 0
        · subst hpm2
          rw [upd_self, upd_self, if_pos (show (0 : ℕ) < 0 + 1 by omega),
            if_pos (show (0 : ℕ) < 0 + 1 by omega)]
          exact ⟨rfl, rfl⟩
        · rw [upd_ne _ _ hpm2, upd_ne _ _ hpm2, e1, e2]
          rw [if_neg (show ¬p < 0 by omega), if_neg (show ¬p < 0 by omega),
            if_neg (show ¬p < 0 + 1 by omega),
            if_neg (show ¬p < 0 + 1 by omega),
            if_neg (show ¬(pow2 - 0 + 1 ≤ p ∧ p ≤ pow2 - 1) by omega),
            if_neg (show ¬(pow2 - 0 + 1 ≤ p ∧ p ≤ pow2 - 1) by omega),
            if_neg (show ¬(pow2 - (0 + 1) + 1 ≤ p ∧ p ≤ pow2 - 1) by omega),
            if_neg (show ¬(pow2 - (0 + 1) + 1 ≤ p ∧ p ≤ pow2 - 1) by omega)]
          exact ⟨rfl, rfl⟩
  exact main n (le_refl n)

theorem eC_mk (θ : ℝ) : (⟨Real.cos θ, Real.sin θ⟩ : ℂ) = eC θ :=
  mk_cos_sin θ

theorem eC_add (θ φ : ℝ) : eC θ * eC φ = eC (θ + φ) := by
  rw [eC, eC, eC, ← Complex.exp_add]
  congr 1
  push_cast
  ring

/-- Reducing the second factor of the exponent of `W M` modulo `M`. -/
theorem W_pow_mul_mod (M : ℕ) (hM : 1 ≤ M) (t a : ℕ) :
    W M ^ (t * a) = W M ^ (t * (a % M)) := by
  conv_lhs => rw [show a = M * (a / M) + a % M from (Nat.div_add_mod a M).symm]
  rw [show t * (M * (a / M) + a % M) = M * (t * (a / M)) + t * (a % M) by ring,
    pow_add, pow_mul, W_pow_self M hM, one_pow, one_mul]

/-- Orthogonality with a product of two kernel powers: the sum selects the
congruence class of `j + i` modulo `M`. -/
theorem sum_conj_W_mul2 (M k j i : ℕ) (hM : 1 ≤ M) (hk : k < M) :
    ∑ t ∈ Finset.range M,
      (starRingEnd ℂ) (W M ^ (k * t)) * (W M ^ (t * j) * W M ^ (t * i)) =
      if (j + i) % M = k then (M : ℂ) else 0 := by
  have hterm : ∀ t ∈ Finset.range M,
      (starRingEnd ℂ) (W M ^ (k * t)) * (W M ^ (t * j) * W M ^ (t * i)) =
      (starRingEnd ℂ) (W M ^ (k * t)) * W M ^ (t * ((j + i) % M)) := by
    intro t _
    rw [← pow_add, show t * j + t * i = t * (j + i) by ring,
      W_pow_mul_mod M hM t (j + i)]
  rw [Finset.sum_congr rfl hterm,
    sum_conj_W_mul M k ((j + i) % M) hM hk (Nat.mod_lt _ (by omega))]

/-- The DFT kernel power as a complex exponential. -/
theorem W_pow_eC (n t j : ℕ) : W n ^ (t * j) = eC (-2 * Real.pi * t * j / n) := by
  rw [W, ← Complex.exp_nat_mul, eC]
  congr 1
  push_cast
  ring

/-- Complex-level characterisation of the `a` chirp buffer of `bluestein_fft`
(after the zeroing and fill loops): `a[k] = x[k]·e^(-iπk²/n)` for `k < n` and
`0` on the rest of the padded buffer. -/
theorem bluestein_a_spec (n : ℕ) (re im mem0 mem1 : ℕ → ℝ) :
    ∀ p, p < bluestein_pow2 n →
      toC (bluestein_fill_a realTrig re im n
        (zeroed (bluestein_pow2 n) mem0, zeroed (bluestein_pow2 n) mem1)) p =
      if p < n then
        toC (re, im) p * eC (-Real.pi * (p : ℝ) * (p : ℝ) / (n : ℝ))
      else 0 := by
  intro p hp
  obtain ⟨e1, e2⟩ := fill_a_spec realTrig re im n
    (zeroed (bluestein_pow2 n) mem0, zeroed (bluestein_pow2 n) mem1) p
  by_cases hpn : p < n
  · rw [if_pos hpn]
    rw [if_pos hpn] at e1 e2
    apply Complex.ext
    · rw [toC_re, e1, Complex.mul_re, ← eC_mk]
      rfl
    · rw [toC_im, e2, Complex.mul_im, ← eC_mk]
      rfl
  · rw [if_neg hpn]
    rw [if_neg hpn] at e1 e2
    apply Complex.ext
    · rw [toC_re, e1]
      simp [zeroed, hp]
    · rw [toC_im, e2]
      simp [zeroed, hp]

/-- Complex-level characterisation of the `b` chirp-filter buffer of
`bluestein_fft`: `b[k] = e^(iπk²/n)` for `k < n`, the mirrored value
`b[pow2-k] = b[k]` on the tail region, and `0` elsewhere on the padded
buffer. -/
theorem bluestein_b_spec (n : ℕ) (hn : 1 ≤ n) (mem2 mem3 : ℕ → ℝ) :
    ∀ p, p < bluestein_pow2 n →
      toC (bluestein_fill_b realTrig n (bluestein_pow2 n)
        (zeroed (bluestein_pow2 n) mem2, zeroed (bluestein_pow2 n) mem3)) p =
      if p < n then eC (Real.pi * (p : ℝ) * (p : ℝ) / (n : ℝ))
      else if bluestein_pow2 n - n + 1 ≤ p ∧ p ≤ bluestein_pow2 n - 1 then
        eC (Real.pi * ((bluestein_pow2 n - p : ℕ) : ℝ) *
          ((bluestein_pow2 n - p : ℕ) : ℝ) / (n : ℝ))
      else 0 := by
  intro p hp
  obtain ⟨e1, e2⟩ := fill_b_spec realTrig n (bluestein_pow2 n) hn
    (bluestein_pow2_ge n)
    (zeroed (bluestein_pow2 n) mem2, zeroed (bluestein_pow2 n) mem3) p
  by_cases hpn : p < n
  · rw [if_pos hpn]
    rw [if_pos hpn] at e1 e2
    apply Complex.ext
    · rw [toC_re, e1, ← eC_mk]
      rfl
    · rw [toC_im, e2, ← eC_mk]
      rfl
  · rw [if_neg hpn]
    rw [if_neg hpn] at e1 e2
    by_cases hpm : bluestein_pow2 n - n + 1 ≤ p ∧ p ≤ bluestein_pow2 n - 1
    · rw [if_pos hpm]
      rw [if_pos hpm] at e1 e2
      apply Complex.ext
      · rw [toC_re, e1, ← eC_mk]
        rfl
      · rw [toC_im, e2, ← eC_mk]
        rfl
    · rw [if_neg hpm]
      rw [if_neg hpm] at e1 e2
      apply Complex.ext
      · rw [toC_re, e1]
        simp [zeroed, hp]
      · rw [toC_im, e2]
        simp [zeroed, hp]

/-- For `j, k < M`, the unique `i < M` with `(j + i) % M = k` is
`(k + M - j) % M`. -/
theorem mod_index_unique (M k j : ℕ) (hM : 1 ≤ M) (hk : k < M) (hj : j < M) :
    ∀ i, i < M → ((j + i) % M = k ↔ i = (k + M - j) % M) := by
  intro i hi
  rcases le_or_lt j k with hjk | hjk
  · have hi0 : (k + M - j) % M = k - j := by
      rw [show k + M - j = M + (k - j) by omega, Nat.add_mod_left,
        Nat.mod_eq_of_lt (by omega)]
    rw [hi0]
    constructor
    · intro h
      rcases Nat.lt_or_ge (j + i) M with hlt | hge
      · rw [Nat.mod_eq_of_lt hlt] at h
        omega
      · rw [Nat.mod_eq_sub_mod hge, Nat.mod_eq_of_lt (by omega)] at h
        omega
    · intro h
      subst h
      rw [Nat.mod_eq_of_lt (by omega)]
      omega
  · have hi0 : (k + M - j) % M = k + M - j := Nat.mod_eq_of_lt (by omega)
    rw [hi0]
    constructor
    · intro h
      rcases Nat.lt_or_ge (j + i) M with hlt | hge
      · rw [Nat.mod_eq_of_lt hlt] at h
        omega
      · rw [Nat.mod_eq_sub_mod hge, Nat.mod_eq_of_lt (by omega)] at h
        omega
    · intro h
      subst h
      rw [show j + (k + M - j) = M + k by omega, Nat.add_mod_left,
        Nat.mod_eq_of_lt hk]

/-- Exchanging the transform sum with the two convolution sums. -/
theorem sum_exchange (M : ℕ) (C : ℕ → ℂ) (f g : ℕ → ℕ → ℂ) :
    ∑ t ∈ Finset.range M,
      C t * ((∑ j ∈ Finset.range M, f t j) * (∑ i ∈ Finset.range M, g t i)) =
    ∑ j ∈ Finset.range M, ∑ i ∈ Finset.range M,
      ∑ t ∈ Finset.range M, C t * (f t j * g t i) := by
  have h1 : ∀ t ∈ Finset.range M,
      C t * ((∑ j ∈ Finset.range M, f t j) * (∑ i ∈ Finset.range M, g t i)) =
      ∑ j ∈ Finset.range M, ∑ i ∈ Finset.range M, C t * (f t j * g t i) := by
    intro t _
    rw [Finset.sum_mul_sum, Finset.mul_sum]
    apply Finset.sum_congr rfl
    intro j _
    rw [Finset.mul_sum]
  rw [Finset.sum_congr rfl h1, Finset.sum_comm]
  apply Finset.sum_congr rfl
  intro j _
  rw [Finset.sum_comm]

/-- `bluestein_fft` computes the exact DFT of length `n` for every `n ≥ 1`
(idealised model), whatever the initial contents of the freshly allocated
buffers: output `k` is `∑ j, x j · e^(-2πi·k·j/n)`. -/
theorem bluestein_dft (n : ℕ) (hn : 1 ≤ n) (mem : ℕ → ℕ → ℝ)
    (re im : ℕ → ℝ) (k : ℕ) (hk : k < n) :
    toC (bluestein_fft realTrig mem re im n) k =
      ∑ j ∈ Finset.range n,
        toC (re, im) j * eC (-2 * Real.pi * (k : ℝ) * (j : ℝ) / (n : ℝ)) := by
  obtain ⟨L, hL0⟩ := bluestein_pow2_is_pow2 n
  have hp2 : 2 * n - 1 ≤ bluestein_pow2 n := bluestein_pow2_ge n
  have hM1 : 1 ≤ bluestein_pow2 n := bluestein_pow2_pos n
  have hnM : n ≤ bluestein_pow2 n := by omega
  have hkM : k < bluestein_pow2 n := by omega
  simp only [bluestein_fft]
  set M := bluestein_pow2 n with hMdef
  have hL : M = 2 ^ L := hL0
  have hMC : (M : ℂ) ≠ 0 := Nat.cast_ne_zero.mpr (by omega)
  set a := bluestein_fill_a realTrig re im n
    (zeroed M (mem 0), zeroed M (mem 1)) with ha
  set b := bluestein_fill_b realTrig n M
    (zeroed M (mem 2), zeroed M (mem 3)) with hb
  set fa := cooley_tukey_fft realTrig a.1 a.2 M with hfadef
  set fb := cooley_tukey_fft realTrig b.1 b.2 M with hfbdef
  set cRe := fun i =>
    if i < M then fa.1 i * fb.1 i - fa.2 i * fb.2 i else mem 4 i with hcRe
  set cIm := fun i =>
    if i < M then fa.1 i * fb.2 i + fa.2 i * fb.1 i else mem 5 i with hcIm
  set c := cooley_tukey_ifft realTrig cRe cIm M with hcdef
  rw [toC_pair, if_pos hk, if_pos hk]
  have hchirp : ∀ p, p < M →
      toC a p = if p < n then
        toC (re, im) p * eC (-Real.pi * (p : ℝ) * (p : ℝ) / (n : ℝ))
      else 0 := by
    intro p hp
    have h0 := bluestein_a_spec n re im (mem 0) (mem 1) p (by rw [← hMdef]; exact hp)
    rw [← hMdef] at h0
    rw [← ha] at h0
    exact h0
  have hfilter : ∀ p, p < M →
      toC b p = if p < n then eC (Real.pi * (p : ℝ) * (p : ℝ) / (n : ℝ))
      else if M - n + 1 ≤ p ∧ p ≤ M - 1 then
        eC (Real.pi * ((M - p : ℕ) : ℝ) * ((M - p : ℕ) : ℝ) / (n : ℝ))
      else 0 := by
    intro p hp
    have h0 := bluestein_b_spec n hn (mem 2) (mem 3) p (by rw [← hMdef]; exact hp)
    rw [← hMdef] at h0
    rw [← hb] at h0
    exact h0
  calc (⟨c.1 k * realTrig.cos (-realTrig.piv * (k : ℝ) * (k : ℝ) / (n : ℝ)) -
          c.2 k * realTrig.sin (-realTrig.piv * (k : ℝ) * (k : ℝ) / (n : ℝ)),
        c.1 k * realTrig.sin (-realTrig.piv * (k : ℝ) * (k : ℝ) / (n : ℝ)) +
          c.2 k * realTrig.cos (-realTrig.piv * (k : ℝ) * (k : ℝ) / (n : ℝ))⟩ : ℂ) =
      toC c k * eC (-Real.pi * (k : ℝ) * (k : ℝ) / (n : ℝ)) := by
        apply Complex.ext
        · rw [Complex.mul_re, ← eC_mk]
          rfl
        · rw [Complex.mul_im, ← eC_mk]
          rfl
  _ = ∑ j ∈ Finset.range n,
        toC (re, im) j * eC (-2 * Real.pi * (k : ℝ) * (j : ℝ) / (n : ℝ)) := by
    have hifft := cooley_tukey_ifft_dft L cRe cIm k (by rw [← hL]; exact hkM)
    rw [← hL, ← hcdef] at hifft
    have hdfta := (cooley_tukey_dft L a.1 a.2).1
    have hdftb := (cooley_tukey_dft L b.1 b.2).1
    rw [← hL] at hdfta hdftb
    have hetaa : toC (a.1, a.2) = toC a := rfl
    have hetab : toC (b.1, b.2) = toC b := rfl
    rw [← hfadef] at hdfta
    rw [← hfbdef] at hdftb
    rw [hetaa] at hdfta
    rw [hetab] at hdftb
    have hprod : ∀ t ∈ Finset.range M,
        (starRingEnd ℂ) (W M ^ (k * t)) * toC (cRe, cIm) t =
        (starRingEnd ℂ) (W M ^ (k * t)) *
          ((∑ j ∈ Finset.range M, W M ^ (t * j) * toC a j) *
           (∑ i ∈ Finset.range M, W M ^ (t * i) * toC b i)) := by
      intro t ht
      rw [Finset.mem_range] at ht
      congr 1
      have h1 : toC (cRe, cIm) t = toC fa t * toC fb t := by
        apply Complex.ext
        · show cRe t = (toC fa t * toC fb t).re
          rw [Complex.mul_re, toC_re, toC_re, toC_im, toC_im]
          show (if t < M then fa.1 t * fb.1 t - fa.2 t * fb.2 t
            else mem 4 t) = _
          rw [if_pos ht]
        · show cIm t = (toC fa t * toC fb t).im
          rw [Complex.mul_im, toC_re, toC_re, toC_im, toC_im]
          show (if t < M then fa.1 t * fb.2 t + fa.2 t * fb.1 t
            else mem 5 t) = _
          rw [if_pos ht]
      rw [h1, hdfta t ht, hdftb t ht]
    rw [hifft, Finset.sum_congr rfl hprod]
    have hex : (∑ t ∈ Finset.range M,
        (starRingEnd ℂ) (W M ^ (k * t)) *
          ((∑ j ∈ Finset.range M, W M ^ (t * j) * toC a j) *
           (∑ i ∈ Finset.range M, W M ^ (t * i) * toC b i))) =
        ∑ j ∈ Finset.range M, ∑ i ∈ Finset.range M,
          ∑ t ∈ Finset.range M,
            (starRingEnd ℂ) (W M ^ (k * t)) *
              ((W M ^ (t * j) * toC a j) * (W M ^ (t * i) * toC b i)) :=
      sum_exchange M _ _ _
    rw [hex]
    have hinner : ∀ j ∈ Finset.range M,
        (∑ i ∈ Finset.range M, ∑ t ∈ Finset.range M,
          (starRingEnd ℂ) (W M ^ (k * t)) *
            ((W M ^ (t * j) * toC a j) * (W M ^ (t * i) * toC b i))) =
        (M : ℂ) * (toC a j * toC b ((k + M - j) % M)) := by
      intro j hj
      rw [Finset.mem_range] at hj
      have hstep1 : ∀ i ∈ Finset.range M,
          (∑ t ∈ Finset.range M, (starRingEnd ℂ) (W M ^ (k * t)) *
            ((W M ^ (t * j) * toC a j) * (W M ^ (t * i) * toC b i))) =
          (if (j + i) % M = k then (M : ℂ) else 0) *
            (toC a j * toC b i) := by
        intro i _
        have hpt : ∀ t ∈ Finset.range M,
            (starRingEnd ℂ) (W M ^ (k * t)) *
              ((W M ^ (t * j) * toC a j) * (W M ^ (t * i) * toC b i)) =
            ((starRingEnd ℂ) (W M ^ (k * t)) *
              (W M ^ (t * j) * W M ^ (t * i))) * (toC a j * toC b i) := by
          intro t _
          ring
        rw [Finset.sum_congr rfl hpt, ← Finset.sum_mul,
          sum_conj_W_mul2 M k j i hM1 hkM]
      rw [Finset.sum_congr rfl hstep1]
      have hsel : ∀ i ∈ Finset.range M,
          (if (j + i) % M = k then (M : ℂ) else 0) * (toC a j * toC b i) =
          if i = (k + M - j) % M then
            (M : ℂ) * (toC a j * toC b i) else 0 := by
        intro i hi
        rw [Finset.mem_range] at hi
        have hiff := mod_index_unique M k j hM1 hkM hj i hi
        by_cases hcase : (j + i) % M = k
        · rw [if_pos hcase, if_pos (hiff.mp hcase)]
        · rw [if_neg hcase, if_neg (fun h => hcase (hiff.mpr h)), zero_mul]
      rw [Finset.sum_congr rfl hsel,
        Finset.sum_ite_eq' (Finset.range M) ((k + M - j) % M),
        if_pos (Finset.mem_range.mpr (Nat.mod_lt _ (by omega)))]
    rw [Finset.sum_congr rfl hinner]
    have hrestrict : (∑ j ∈ Finset.range M,
        (M : ℂ) * (toC a j * toC b ((k + M - j) % M))) =
        ∑ j ∈ Finset.range n,
          (M : ℂ) * (toC a j * toC b ((k + M - j) % M)) := by
      symm
      apply Finset.sum_subset (Finset.range_subset.mpr hnM)
      intro j hj hnj
      rw [Finset.mem_range] at hj
      have hnj2 : ¬j < n := by
        intro h
        exact hnj (Finset.mem_range.mpr h)
      rw [hchirp j hj, if_neg hnj2, zero_mul, mul_zero]
    rw [hrestrict, Finset.mul_sum, Finset.sum_mul]
    apply Finset.sum_congr rfl
    intro j hjmem
    have hj : j < n := Finset.mem_range.mp hjmem
    have hcancel : ∀ z : ℂ, 1 / (M : ℂ) * ((M : ℂ) * z) = z := by
      intro z
      field_simp
    have hnR : (n : ℝ) ≠ 0 := by
      simp only [ne_eq, Nat.cast_eq_zero]
      omega
    rw [hchirp j (by omega), if_pos hj]
    rcases le_or_lt j k with hjk | hjk
    · -- j ≤ k: the filter value comes from the head region of b
      have hidx : (k + M - j) % M = k - j := by
        rw [show k + M - j = M + (k - j) by omega, Nat.add_mod_left,
          Nat.mod_eq_of_lt (by omega)]
      rw [hidx, hfilter (k - j) (by omega), if_pos (show k - j < n by omega),
        Nat.cast_sub hjk, hcancel, mul_assoc, mul_assoc, eC_add, eC_add]
      exact congrArg (fun θ => toC (re, im) j * eC θ)
        (by field_simp; ring)
    · -- j > k: the filter value comes from the mirrored tail region of b
      have hplt : k + M - j < M := by omega
      have hidx : (k + M - j) % M = k + M - j := Nat.mod_eq_of_lt hplt
      have hq1 : ¬k + M - j < n := by omega
      have hq2 : M - n + 1 ≤ k + M - j ∧ k + M - j ≤ M - 1 := by omega
      rw [hidx, hfilter (k + M - j) hplt, if_neg hq1, if_pos hq2,
        show M - (k + M - j) = j - k by omega,
        Nat.cast_sub (le_of_lt hjk), hcancel, mul_assoc, mul_assoc,
        eC_add, eC_add]
      exact congrArg (fun θ => toC (re, im) j * eC θ)
        (by field_simp; ring)

/-! ## Concrete evaluations of the padded length -/

theorem bluestein_pow2_zero_eval : bluestein_pow2 0 = 1 := by
  rw [bluestein_pow2]
  exact pow2_loop_of_ge (by norm_num)

theorem bluestein_pow2_two_eval : bluestein_pow2 2 = 4 := by
  rw [bluestein_pow2]
  have e1 : pow2_loop 3 1 = pow2_loop 3 2 := by
    rw [pow2_loop_of_lt (by norm_num) (by norm_num)]
  have e2 : pow2_loop 3 2 = pow2_loop 3 4 := by
    rw [pow2_loop_of_lt (by norm_num) (by norm_num)]
  rw [e1, e2]
  exact pow2_loop_of_ge (by norm_num)

theorem bluestein_pow2_four_eval : bluestein_pow2 4 = 8 := by
  rw [bluestein_pow2]
  have e1 : pow2_loop 7 1 = pow2_loop 7 2 := by
    rw [pow2_loop_of_lt (by norm_num) (by norm_num)]
  have e2 : pow2_loop 7 2 = pow2_loop 7 4 := by
    rw [pow2_loop_of_lt (by norm_num) (by norm_num)]
  have e3 : pow2_loop 7 4 = pow2_loop 7 8 := by
    rw [pow2_loop_of_lt (by norm_num) (by norm_num)]
  rw [e1, e2, e3]
  exact pow2_loop_of_ge (by norm_num)

theorem eC_zero : eC 0 = 1 := by
  rw [eC]
  simp

/-! ## The claims -/

/-- Claim C1: round-trip. For every power-of-two length `n = 2^L` and every
pair of real/imaginary input arrays, `cooley_tukey_ifft` (which conjugates
the imaginary part, runs the forward transform, then conjugates and scales
both parts by `1/n`) applied to the output of `cooley_tukey_fft` restores
the original arrays exactly in the idealised exact-real model — error 0,
hence within the claimed single-precision tolerance. -/
theorem claim_C1 (L : ℕ) (re im : ℕ → ℝ) (k : ℕ) (hk : k < 2 ^ L) :
    (cooley_tukey_ifft realTrig
      (cooley_tukey_fft realTrig re im (2 ^ L)).1
      (cooley_tukey_fft realTrig re im (2 ^ L)).2 (2 ^ L)).1 k = re k ∧
    (cooley_tukey_ifft realTrig
      (cooley_tukey_fft realTrig re im (2 ^ L)).1
      (cooley_tukey_fft realTrig re im (2 ^ L)).2 (2 ^ L)).2 k = im k := by
  have h := cooley_tukey_roundtrip L re im k hk
  exact ⟨congrArg Complex.re h, congrArg Complex.im h⟩

theorem claim_C1_witness :
    (0 : ℕ) < 2 ^ 1 ∧
    ((cooley_tukey_ifft realTrig
      (cooley_tukey_fft realTrig (fun _ => 1) (fun _ => 0) (2 ^ 1)).1
      (cooley_tukey_fft realTrig (fun _ => 1) (fun _ => 0) (2 ^ 1)).2
      (2 ^ 1)).1 0 = 1 ∧
     (cooley_tukey_ifft realTrig
      (cooley_tukey_fft realTrig (fun _ => 1) (fun _ => 0) (2 ^ 1)).1
      (cooley_tukey_fft realTrig (fun _ => 1) (fun _ => 0) (2 ^ 1)).2
      (2 ^ 1)).2 0 = 0) :=
  ⟨by norm_num, claim_C1 1 (fun _ => 1) (fun _ => 0) 0 (by norm_num)⟩

/-- Claim C2: known small cases, in the idealised exact-real model. For
`N = 1`, `bluestein_fft` (hence `wasm_fft`, which merely forwards to it)
leaves `real[0]` and `imag[0]` unchanged for every input and every initial
heap; and for `N = 3` with impulse input `real = [1,0,0]`, `imag = [0,0,0]`
every output index `k < 3` holds `real[k] = 1`, `imag[k] = 0`, exercising
the Bluestein path. -/
theorem claim_C2 (mem : ℕ → ℕ → ℝ) (re im : ℕ → ℝ) (k : ℕ) (hk : k < 3) :
    ((bluestein_fft realTrig mem re im 1).1 0 = re 0 ∧
     (bluestein_fft realTrig mem re im 1).2 0 = im 0) ∧
    ((bluestein_fft realTrig mem (fun j => if j = 0 then 1 else 0)
        (fun _ => 0) 3).1 k = 1 ∧
     (bluestein_fft realTrig mem (fun j => if j = 0 then 1 else 0)
        (fun _ => 0) 3).2 k = 0) := by
  constructor
  · have h := bluestein_dft 1 (le_refl 1) mem re im 0 (by norm_num)
    rw [Finset.sum_range_one] at h
    have hang : (-2 * Real.pi * ((0 : ℕ) : ℝ) * ((0 : ℕ) : ℝ) /
        ((1 : ℕ) : ℝ)) = 0 := by norm_num
    rw [hang, eC_zero, mul_one] at h
    exact ⟨congrArg Complex.re h, congrArg Complex.im h⟩
  · have h := bluestein_dft 3 (by norm_num) mem
      (fun j => if j = 0 then (1 : ℝ) else 0) (fun _ => 0) k hk
    simp only [Finset.sum_range_succ, Finset.sum_range_one] at h
    have h0 : toC ((fun j => if j = 0 then (1 : ℝ) else 0),
        (fun _ => (0 : ℝ))) 0 = 1 := by
      rw [toC_pair]
      apply Complex.ext <;> simp
    have h1 : toC ((fun j => if j = 0 then (1 : ℝ) else 0),
        (fun _ => (0 : ℝ))) 1 = 0 := by
      rw [toC_pair]
      apply Complex.ext <;> simp
    have h2 : toC ((fun j => if j = 0 then (1 : ℝ) else 0),
        (fun _ => (0 : ℝ))) 2 = 0 := by
      rw [toC_pair]
      apply Complex.ext <;> simp
    rw [h0, h1, h2, zero_mul, zero_mul, add_zero, add_zero] at h
    have hang : (-2 * Real.pi * (k : ℝ) * ((0 : ℕ) : ℝ) /
        ((3 : ℕ) : ℝ)) = 0 := by norm_num
    rw [hang, eC_zero, mul_one, Finset.sum_range_zero, zero_add] at h
    constructor
    · have h' := congrArg Complex.re h
      rw [Complex.one_re] at h'
      exact h'
    · have h' := congrArg Complex.im h
      rw [Complex.one_im] at h'
      exact h'

theorem claim_C2_witness :
    (1 : ℕ) < 3 ∧
    (((bluestein_fft realTrig (fun _ _ => 0) (fun _ => 2) (fun _ => 3) 1).1 0 = 2 ∧
      (bluestein_fft realTrig (fun _ _ => 0) (fun _ => 2) (fun _ => 3) 1).2 0 = 3) ∧
     ((bluestein_fft realTrig (fun _ _ => 0) (fun j => if j = 0 then 1 else 0)
        (fun _ => 0) 3).1 1 = 1 ∧
      (bluestein_fft realTrig (fun _ _ => 0) (fun j => if j = 0 then 1 else 0)
        (fun _ => 0) 3).2 1 = 0)) :=
  ⟨by norm_num,
   claim_C2 (fun _ _ => 0) (fun _ => 2) (fun _ => 3) 1 (by norm_num)⟩

/-- Claim C3 counterexample: for the power-of-two length `N = 4` the public
entry point does not invoke the radix-2 engine directly: `wasm_fft` calls
`bluestein_fft` unconditionally (there is no power-of-two dispatch in
`fft.c`), and the wrapper machinery performs six auxiliary allocations of
the padded length 8 — a direct radix-2 invocation performs none. -/
theorem claim_C3_counterexample :
    wasm_fft_alloc_trace ((4 : ℕ) : ℤ) = [8, 8, 8, 8, 8, 8] ∧
    wasm_fft_alloc_trace ((4 : ℕ) : ℤ) ≠ [] := by
  have h : wasm_fft_alloc_trace ((4 : ℕ) : ℤ) = [8, 8, 8, 8, 8, 8] := by
    rw [wasm_fft_alloc_trace]
    have h0 : (((4 : ℕ) : ℤ)).toNat = 4 := rfl
    rw [h0]
    simp only [bluestein_alloc_trace, bluestein_pow2_four_eval]
  refine ⟨h, ?_⟩
  rw [h]
  simp

/-- Claim C3 (amended): `wasm_fft` always calls `bluestein_fft`; there is no
direct dispatch to the radix-2 engine for power-of-two lengths. The
agreement half of the claim holds exactly in the idealised real model: for
`N = 2^L` the Bluestein wrapper's output matches the direct radix-2 engine's
output at every index `k < N`. -/
theorem claim_C3 (L : ℕ) (mem : ℕ → ℕ → ℝ) (re im : ℕ → ℝ) (k : ℕ)
    (hk : k < 2 ^ L) :
    (wasm_fft realTrig mem re im ((2 ^ L : ℕ) : ℤ)).1 k =
      (cooley_tukey_fft realTrig re im (2 ^ L)).1 k ∧
    (wasm_fft realTrig mem re im ((2 ^ L : ℕ) : ℤ)).2 k =
      (cooley_tukey_fft realTrig re im (2 ^ L)).2 k := by
  have htn : (((2 ^ L : ℕ) : ℤ)).toNat = 2 ^ L := rfl
  have h1 : toC (wasm_fft realTrig mem re im ((2 ^ L : ℕ) : ℤ)) k =
      ∑ j ∈ Finset.range (2 ^ L),
        toC (re, im) j *
          eC (-2 * Real.pi * (k : ℝ) * (j : ℝ) / ((2 ^ L : ℕ) : ℝ)) := by
    rw [wasm_fft, htn]
    exact bluestein_dft (2 ^ L) (Nat.pos_pow_of_pos _ (by norm_num))
      mem re im k hk
  obtain ⟨hdft, _⟩ := cooley_tukey_dft L re im
  have h2 : toC (cooley_tukey_fft realTrig re im (2 ^ L)) k =
      ∑ j ∈ Finset.range (2 ^ L), W (2 ^ L) ^ (k * j) * toC (re, im) j :=
    hdft k hk
  have h3 : ∑ j ∈ Finset.range (2 ^ L), W (2 ^ L) ^ (k * j) * toC (re, im) j =
      ∑ j ∈ Finset.range (2 ^ L),
        toC (re, im) j *
          eC (-2 * Real.pi * (k : ℝ) * (j : ℝ) / ((2 ^ L : ℕ) : ℝ)) := by
    apply Finset.sum_congr rfl
    intro j _
    rw [W_pow_eC (2 ^ L) k j]
    ring
  have h : toC (wasm_fft realTrig mem re im ((2 ^ L : ℕ) : ℤ)) k =
      toC (cooley_tukey_fft realTrig re im (2 ^ L)) k := by
    rw [h1, h2, h3]
  exact ⟨congrArg Complex.re h, congrArg Complex.im h⟩

theorem claim_C3_witness :
    (1 : ℕ) < 2 ^ 1 ∧
    ((wasm_fft realTrig (fun _ _ => 0) (fun _ => 1) (fun _ => 0)
        ((2 ^ 1 : ℕ) : ℤ)).1 1 =
      (cooley_tukey_fft realTrig (fun _ => 1) (fun _ => 0) (2 ^ 1)).1 1 ∧
     (wasm_fft realTrig (fun _ _ => 0) (fun _ => 1) (fun _ => 0)
        ((2 ^ 1 : ℕ) : ℤ)).2 1 =
      (cooley_tukey_fft realTrig (fun _ => 1) (fun _ => 0) (2 ^ 1)).2 1) :=
  ⟨by norm_num,
   claim_C3 1 (fun _ _ => 0) (fun _ => 1) (fun _ => 0) 1 (by norm_num)⟩

/-- Claim C4: for every `n ≥ 1` the padded length `pow2` computed at the
start of `bluestein_fft` (initialising `pow2 = 1` and doubling while
`pow2 < 2n - 1`) is a power of two, is at least `2n - 1`, and is the
smallest power of two that is at least `2n - 1`. -/
theorem claim_C4 (n : ℕ) (_hn : 1 ≤ n) :
    (∃ L, bluestein_pow2 n = 2 ^ L) ∧
    2 * n - 1 ≤ bluestein_pow2 n ∧
    (∀ j, 2 * n - 1 ≤ 2 ^ j → bluestein_pow2 n ≤ 2 ^ j) := by
  exact ⟨bluestein_pow2_is_pow2 n, bluestein_pow2_ge n,
    fun j hj => bluestein_pow2_min n j hj⟩

theorem claim_C4_witness :
    1 ≤ 3 ∧
    ((∃ L, bluestein_pow2 3 = 2 ^ L) ∧
     2 * 3 - 1 ≤ bluestein_pow2 3 ∧
     (∀ j, 2 * 3 - 1 ≤ 2 ^ j → bluestein_pow2 3 ≤ 2 ^ j)) :=
  ⟨by norm_num, claim_C4 3 (by norm_num)⟩

/-- Claim C6: after the first loop of `cooley_tukey_fft` (the bit-reversal
pass, a single in-place swap loop over the two arrays) and before any
butterfly pass, the element originally at index `i` resides at the index
whose `L`-bit binary representation is the bit-reversal of `i`, for every
`i < 2^L`. -/
theorem claim_C6 {F : Type} (L : ℕ) (st : (ℕ → F) × (ℕ → F)) (i : ℕ)
    (hi : i < 2 ^ L) :
    (bit_reversal_pass (2 ^ L) st).1 (bitRev L i) = st.1 i ∧
    (bit_reversal_pass (2 ^ L) st).2 (bitRev L i) = st.2 i := by
  obtain ⟨h1, h2⟩ := bit_reversal_pass_spec L st (bitRev L i) (bitRev_lt L i)
  rw [h1, h2, bitRev_bitRev L i hi]
  exact ⟨rfl, rfl⟩

theorem claim_C6_witness :
    1 < 2 ^ 2 ∧
    ((bit_reversal_pass (2 ^ 2)
        ((fun j => j, fun j => j) : (ℕ → ℕ) × (ℕ → ℕ))).1 (bitRev 2 1) = 1 ∧
     (bit_reversal_pass (2 ^ 2)
        ((fun j => j, fun j => j) : (ℕ → ℕ) × (ℕ → ℕ))).2 (bitRev 2 1) = 1) :=
  ⟨by norm_num,
   claim_C6 2 ((fun j => j, fun j => j) : (ℕ → ℕ) × (ℕ → ℕ)) 1 (by norm_num)⟩

/-- Claim C7 counterexample: calling the public entry point `wasm_fft` with
`size = 0` (which is `≤ 0`) performs six allocations, of the minimal padded
length 1 each, so the claim that an InvalidLength error is surfaced before
any buffer work — in particular that no allocation occurs — is false:
`wasm_fft` contains no validation and no error path at all. -/
theorem claim_C7_counterexample :
    wasm_fft_alloc_trace 0 = [1, 1, 1, 1, 1, 1] ∧
    wasm_fft_alloc_trace 0 ≠ [] := by
  have h : wasm_fft_alloc_trace 0 = [1, 1, 1, 1, 1, 1] := by
    rw [wasm_fft_alloc_trace]
    have h0 : (0 : ℤ).toNat = 0 := rfl
    rw [h0]
    simp only [bluestein_alloc_trace, bluestein_pow2_zero_eval]
  refine ⟨h, ?_⟩
  rw [h]
  simp

/-- Claim C7 (amended): `wasm_fft` performs no validation and surfaces no
error; for `size ≤ 0` it still makes six allocations (of the minimal padded
length 1), but every loop over the caller's buffers is vacuous, so the
caller's arrays are returned unchanged. -/
theorem claim_C7 {F : Type} [Field F] (T : Trig F) (mem : ℕ → ℕ → F)
    (re im : ℕ → F) (size : ℤ) (hsize : size ≤ 0) :
    wasm_fft T mem re im size = (re, im) ∧
    wasm_fft_alloc_trace size = [1, 1, 1, 1, 1, 1] := by
  have h0 : size.toNat = 0 := Int.toNat_of_nonpos hsize
  constructor
  · rw [wasm_fft, h0]
    apply Prod.ext <;> funext k <;> simp [bluestein_fft]
  · rw [wasm_fft_alloc_trace, h0]
    simp only [bluestein_alloc_trace, bluestein_pow2_zero_eval]

theorem claim_C7_witness :
    (0 : ℤ) ≤ 0 ∧
    (wasm_fft realTrig (fun _ _ => 0) (fun _ => 0) (fun _ => 1) 0 =
      ((fun _ => 0), (fun _ => 1)) ∧
     wasm_fft_alloc_trace 0 = [1, 1, 1, 1, 1, 1]) :=
  ⟨le_refl 0,
   claim_C7 realTrig (fun _ _ => 0) (fun _ => 0) (fun _ => 1) 0 (le_refl 0)⟩

/-- Claim C8 (code bug): `bluestein_fft` never checks any of its six
allocation results, so a failed allocation is not reported and the transform
does not abort cleanly: the zeroing and product loops store through the null
pointer. Under the allocator oracle where allocations fail, the run ends in
a null dereference, not an error report; when all succeed it completes. -/
theorem claim_C8 :
    bluestein_run (fun _ => false) 2 = BluesteinOutcome.nullDeref ∧
    bluestein_run (fun _ => true) 2 = BluesteinOutcome.completes :=
  ⟨rfl, rfl⟩

/-- Claim C9 (code bug): `fft.c` contains no call to `free`, so no auxiliary
buffer is ever released on any path: at `n = 2` one `bluestein_fft` call
performs six allocations of 4 floats each and zero releases, so across
repeated calls allocate and release are never in symmetry — every call
leaks all six buffers. -/
theorem claim_C9 :
    bluestein_alloc_trace 2 = [4, 4, 4, 4, 4, 4] ∧
    ∀ n, bluestein_free_trace n = [] := by
  constructor
  · simp only [bluestein_alloc_trace, bluestein_pow2_two_eval]
  · intro n
    rfl

/-- Claim C5: chirp construction, in the idealised real model. For every
`n ≥ 1`, with `M = bluestein_pow2 n` the padded length, after the zeroing
and fill loops and before the forward transforms: the `a` buffer satisfies
`a[k] = x[k]·e^(-iπk²/n)` for `k < n` and `a[k] = 0` for `n ≤ k < M`; the
`b` buffer satisfies `b[k] = e^(iπk²/n)` for `k < n`, the mirror identity
`b[M-k] = b[k]` for `0 < k < n`, and `b` is `0` at every other index
below `M`. -/
theorem claim_C5 (n : ℕ) (hn : 1 ≤ n) (re im mem0 mem1 mem2 mem3 : ℕ → ℝ) :
    (∀ k, k < n →
      toC (bluestein_fill_a realTrig re im n
        (zeroed (bluestein_pow2 n) mem0, zeroed (bluestein_pow2 n) mem1)) k =
      toC (re, im) k * eC (-Real.pi * (k : ℝ) * (k : ℝ) / (n : ℝ))) ∧
    (∀ k, n ≤ k → k < bluestein_pow2 n →
      toC (bluestein_fill_a realTrig re im n
        (zeroed (bluestein_pow2 n) mem0, zeroed (bluestein_pow2 n) mem1)) k =
      0) ∧
    (∀ k, k < n →
      toC (bluestein_fill_b realTrig n (bluestein_pow2 n)
        (zeroed (bluestein_pow2 n) mem2, zeroed (bluestein_pow2 n) mem3)) k =
      eC (Real.pi * (k : ℝ) * (k : ℝ) / (n : ℝ))) ∧
    (∀ k, 0 < k → k < n →
      toC (bluestein_fill_b realTrig n (bluestein_pow2 n)
        (zeroed (bluestein_pow2 n) mem2, zeroed (bluestein_pow2 n) mem3))
        (bluestein_pow2 n - k) =
      toC (bluestein_fill_b realTrig n (bluestein_pow2 n)
        (zeroed (bluestein_pow2 n) mem2, zeroed (bluestein_pow2 n) mem3)) k) ∧
    (∀ p, n ≤ p → p < bluestein_pow2 n →
      (∀ k, 0 < k → k < n → p ≠ bluestein_pow2 n - k) →
      toC (bluestein_fill_b realTrig n (bluestein_pow2 n)
        (zeroed (bluestein_pow2 n) mem2, zeroed (bluestein_pow2 n) mem3)) p =
      0) := by
  have hge := bluestein_pow2_ge n
  have hpos := bluestein_pow2_pos n
  refine ⟨?_, ?_, ?_, ?_, ?_⟩
  · intro k hk
    have h := bluestein_a_spec n re im mem0 mem1 k (by omega)
    rw [if_pos hk] at h
    exact h
  · intro k hk1 hk2
    have h := bluestein_a_spec n re im mem0 mem1 k hk2
    rw [if_neg (show ¬ k < n by omega)] at h
    exact h
  · intro k hk
    have h := bluestein_b_spec n hn mem2 mem3 k (by omega)
    rw [if_pos hk] at h
    exact h
  · intro k hk0 hkn
    have hL := bluestein_b_spec n hn mem2 mem3 (bluestein_pow2 n - k)
      (by omega)
    rw [if_neg (show ¬ bluestein_pow2 n - k < n by omega),
      if_pos (show bluestein_pow2 n - n + 1 ≤ bluestein_pow2 n - k ∧
        bluestein_pow2 n - k ≤ bluestein_pow2 n - 1 by omega)] at hL
    have hR := bluestein_b_spec n hn mem2 mem3 k (by omega)
    rw [if_pos (show k < n by omega)] at hR
    rw [hL, hR,
      show bluestein_pow2 n - (bluestein_pow2 n - k) = k by omega]
  · intro p hp1 hp2 hpk
    have h := bluestein_b_spec n hn mem2 mem3 p hp2
    rw [if_neg (show ¬ p < n by omega)] at h
    rw [if_neg ?hm] at h
    · exact h
    case hm =>
      rintro ⟨ha, hb⟩
      exact hpk (bluestein_pow2 n - p) (by omega) (by omega) (by omega)

theorem claim_C5_witness :
    1 ≤ 2 ∧
    ((∀ k, k < 2 →
      toC (bluestein_fill_a realTrig (fun _ => 1) (fun _ => 0) 2
        (zeroed (bluestein_pow2 2) (fun _ => 5),
         zeroed (bluestein_pow2 2) (fun _ => 5))) k =
      toC ((fun _ => 1), (fun _ => 0)) k *
        eC (-Real.pi * (k : ℝ) * (k : ℝ) / (2 : ℕ))) ∧
    (∀ k, 2 ≤ k → k < bluestein_pow2 2 →
      toC (bluestein_fill_a realTrig (fun _ => 1) (fun _ => 0) 2
        (zeroed (bluestein_pow2 2) (fun _ => 5),
         zeroed (bluestein_pow2 2) (fun _ => 5))) k = 0) ∧
    (∀ k, k < 2 →
      toC (bluestein_fill_b realTrig 2 (bluestein_pow2 2)
        (zeroed (bluestein_pow2 2) (fun _ => 5),
         zeroed (bluestein_pow2 2) (fun _ => 5))) k =
      eC (Real.pi * (k : ℝ) * (k : ℝ) / (2 : ℕ))) ∧
    (∀ k, 0 < k → k < 2 →
      toC (bluestein_fill_b realTrig 2 (bluestein_pow2 2)
        (zeroed (bluestein_pow2 2) (fun _ => 5),
         zeroed (bluestein_pow2 2) (fun _ => 5))) (bluestein_pow2 2 - k) =
      toC (bluestein_fill_b realTrig 2 (bluestein_pow2 2)
        (zeroed (bluestein_pow2 2) (fun _ => 5),
         zeroed (bluestein_pow2 2) (fun _ => 5))) k) ∧
    (∀ p, 2 ≤ p → p < bluestein_pow2 2 →
      (∀ k, 0 < k → k < 2 → p ≠ bluestein_pow2 2 - k) →
      toC (bluestein_fill_b realTrig 2 (bluestein_pow2 2)
        (zeroed (bluestein_pow2 2) (fun _ => 5),
         zeroed (bluestein_pow2 2) (fun _ => 5))) p = 0)) :=
  ⟨by norm_num,
   claim_C5 2 (by norm_num) (fun _ => 1) (fun _ => 0)
     (fun _ => 5) (fun _ => 5) (fun _ => 5) (fun _ => 5)⟩

/-- Claim C10: in-bounds access. For every `n ≥ 1`: the padded length is an
exact power of two and is at least 1 (the radix-2 engines' precondition);
the mirror writes go to indices `pow2 - k` with `n ≤ pow2 - k < pow2` for
`1 ≤ k ≤ n - 1`, never colliding with the head region `[0, n)` nor
exceeding the length-`pow2` auxiliary buffers; the caller's buffers are
read only at indices below `n` (outputs at `k < n` depend only on the
inputs below `n`); and they are written only at indices below `n` (indices
`k ≥ n` are returned unchanged). -/
theorem claim_C10 (n : ℕ) (hn : 1 ≤ n) :
    ((∃ L, bluestein_pow2 n = 2 ^ L) ∧ 1 ≤ bluestein_pow2 n) ∧
    (∀ k, 1 ≤ k → k ≤ n - 1 →
      n ≤ bluestein_pow2 n - k ∧ bluestein_pow2 n - k < bluestein_pow2 n) ∧
    (∀ (mem : ℕ → ℕ → ℝ) (re im re2 im2 : ℕ → ℝ),
      (∀ j, j < n → re j = re2 j ∧ im j = im2 j) →
      ∀ k, k < n →
        (bluestein_fft realTrig mem re im n).1 k =
          (bluestein_fft realTrig mem re2 im2 n).1 k ∧
        (bluestein_fft realTrig mem re im n).2 k =
          (bluestein_fft realTrig mem re2 im2 n).2 k) ∧
    (∀ (mem : ℕ → ℕ → ℝ) (re im : ℕ → ℝ) (k : ℕ), n ≤ k →
      (bluestein_fft realTrig mem re im n).1 k = re k ∧
      (bluestein_fft realTrig mem re im n).2 k = im k) := by
  have hge := bluestein_pow2_ge n
  have hpos := bluestein_pow2_pos n
  refine ⟨⟨bluestein_pow2_is_pow2 n, hpos⟩, ?_, ?_, ?_⟩
  · intro k h1 h2
    omega
  · intro mem re im re2 im2 hagree k hk
    have h1 := bluestein_dft n hn mem re im k hk
    have h2 := bluestein_dft n hn mem re2 im2 k hk
    have hsum : ∑ j ∈ Finset.range n,
        toC (re, im) j * eC (-2 * Real.pi * (k : ℝ) * (j : ℝ) / (n : ℝ)) =
        ∑ j ∈ Finset.range n,
        toC (re2, im2) j * eC (-2 * Real.pi * (k : ℝ) * (j : ℝ) / (n : ℝ)) := by
      apply Finset.sum_congr rfl
      intro j hj
      rw [Finset.mem_range] at hj
      obtain ⟨e1, e2⟩ := hagree j hj
      rw [toC_pair, toC_pair, e1, e2]
    have h : toC (bluestein_fft realTrig mem re im n) k =
        toC (bluestein_fft realTrig mem re2 im2 n) k := by
      rw [h1, h2, hsum]
    exact ⟨congrArg Complex.re h, congrArg Complex.im h⟩
  · intro mem re im k hk
    have hnk : ¬ k < n := by omega
    constructor
    · simp only [bluestein_fft]
      rw [if_neg hnk]
    · simp only [bluestein_fft]
      rw [if_neg hnk]

theorem claim_C10_witness :
    1 ≤ 2 ∧
    (((∃ L, bluestein_pow2 2 = 2 ^ L) ∧ 1 ≤ bluestein_pow2 2) ∧
    (∀ k, 1 ≤ k → k ≤ 2 - 1 →
      2 ≤ bluestein_pow2 2 - k ∧ bluestein_pow2 2 - k < bluestein_pow2 2) ∧
    (∀ (mem : ℕ → ℕ → ℝ) (re im re2 im2 : ℕ → ℝ),
      (∀ j, j < 2 → re j = re2 j ∧ im j = im2 j) →
      ∀ k, k < 2 →
        (bluestein_fft realTrig mem re im 2).1 k =
          (bluestein_fft realTrig mem re2 im2 2).1 k ∧
        (bluestein_fft realTrig mem re im 2).2 k =
          (bluestein_fft realTrig mem re2 im2 2).2 k) ∧
    (∀ (mem : ℕ → ℕ → ℝ) (re im : ℕ → ℝ) (k : ℕ), 2 ≤ k →
      (bluestein_fft realTrig mem re im 2).1 k = re k ∧
      (bluestein_fft realTrig mem re im 2).2 k = im k)) :=
  ⟨by norm_num, claim_C10 2 (by norm_num)⟩

end Tuner
